import Mathlib

set_option maxRecDepth 100000

/-!
# Weighted random selection table (`randomweighttable.go`)

A shallow embedding of the Go package `randomweighttable` and the properties of
its operations `New`, `clean`, `Add`, `Get`, `Delete`, `GetProbability`,
`GetAllProbabilities`.

Modelling conventions

* `int64` is the type `Int64` of integers in `[-2^63, 2^63)`; Go's `+`, `-` on
  `int64` wrap modulo `2^64` (`wrapInt64`).
* `any` is `Option V` for a payload type `V`; `nil` is `none`.
* `map[string]*Item` is a finite map `Finmap` (keys unique, no order).  The
  order in which `range` visits the entries is an argument of `Get`: any list
  enumerating the entries of the map.
* `rand.IntN(n)` is an argument of `Get`: the number drawn, in `[0, n)`.
* `float64` is the type `F64` of mantissa and exponent pairs; every `float64`
  operation rounds its exact result to the nearest representable number, ties
  to even (`F64.roundRat`).  `0.0` and `-0.0`, which Go's `==` does not tell
  apart, are one value.
* `Get wt draw order` takes the number returned by `rand.IntN` as an argument.
  The call `rand.IntN(int(wt.totalWeight))` itself, which panics on an argument
  `<= 0`, and the width of `int` (32 or 64 bits, by target) are explicit in
  `GetOn`.
* the lock is not modelled: every operation is one atomic step.
-/

namespace RandomWeightTable

/-! ## 64-bit signed integers -/

/-- Reduction of an integer into the `int64` range `[-2^63, 2^63)`, modulo `2^64`. -/
def wrapInt64 (x : Int) : Int :=
  (x + 9223372036854775808) % 18446744073709551616 - 9223372036854775808

/-- A Go `int64`: an integer together with its range bounds. -/
structure Int64 where
  val : Int
  lo : -9223372036854775808 ≤ val
  hi : val ≤ 9223372036854775807
  deriving DecidableEq

namespace Int64

/-- Conversion `int64(x)` of an integer (constant or `int`) to `int64`. -/
def ofInt (x : Int) : Int64 :=
  ⟨wrapInt64 x, by unfold wrapInt64; omega, by unfold wrapInt64; omega⟩

/-- Go `a + b` on `int64` (wraps on overflow). -/
def add (a b : Int64) : Int64 := ofInt (a.val + b.val)

/-- Go `a - b` on `int64` (wraps on overflow). -/
def sub (a b : Int64) : Int64 := ofInt (a.val - b.val)

end Int64

/-! ## Data model -/

/-- The Go struct `Item`: `weight int64`, `item any`. -/
structure Item (V : Type) where
  weight : Int64
  item : Option V
  deriving DecidableEq

/-- The Go struct `WeightTable` without its mutex: `items map[string]*Item`,
`totalWeight int64`. -/
@[ext]
structure WeightTable (V : Type) where
  items : Finmap (fun _ : String => Item V)
  totalWeight : Int64

variable {V : Type}

/-- The table built by `New`: an empty map and `totalWeight: 0`. -/
def New : WeightTable V := { items := ∅, totalWeight := Int64.ofInt 0 }

/-- The method `clean`, the teardown returned by `New`: `clear(wt.items)`. -/
def clean (wt : WeightTable V) : WeightTable V := { wt with items := ∅ }

/-- The method `Add`: the table after the call and the returned `bool`. -/
def Add (wt : WeightTable V) (key : String) (item : Option V) (weight : Int64) :
    WeightTable V × Bool :=
  if weight.val ≤ 0 ∨ key.utf8ByteSize = 0 then (wt, false)
  else
    match wt.items.lookup key with
    | none =>
      if item.isNone then (wt, false)
      else
        ({ items := wt.items.insert key { item := item, weight := weight },
           totalWeight := wt.totalWeight.add weight }, true)
    | some itm =>
      let itm1 : Item V := { itm with weight := itm.weight.add weight }
      let itm2 : Item V := if item.isSome then { itm1 with item := item } else itm1
      ({ items := wt.items.insert key itm2,
         totalWeight := wt.totalWeight.add weight }, true)

/-- The loop of `Get`: `randomNumber -= item.weight` for each entry in turn,
returning the first entry at which `randomNumber <= 0`; `("", nil)` when the
loop ends without returning. -/
def scan (randomNumber : Int64) : List (Sigma fun _ : String => Item V) → String × Option V
  | [] => ("", none)
  | ⟨key, item⟩ :: rest =>
    let r := randomNumber.sub item.weight
    if r.val ≤ 0 then (key, item.item) else scan r rest

/-- The method `Get`.  `draw` is the value of `rand.IntN(int(wt.totalWeight))`
and `order` the order in which `range wt.items` yields the entries. -/
def Get (wt : WeightTable V) (draw : Int) (order : List (Sigma fun _ : String => Item V)) :
    String × Option V :=
  if wt.totalWeight.val ≤ 0 then ("", none)
  else scan ((Int64.ofInt draw).add (Int64.ofInt 1)) order

/-- The method `Delete`. -/
def Delete (wt : WeightTable V) (key : String) : WeightTable V :=
  match wt.items.lookup key with
  | some item =>
    { items := wt.items.erase key, totalWeight := wt.totalWeight.sub item.weight }
  | none => wt

/-- Sum, over the integers, of the weights of the entries stored in a map. -/
def sumWeights (m : Finmap (fun _ : String => Item V)) : Int :=
  (m.entries.map fun e => e.2.weight.val).sum

/-- An iteration order of a map: a list enumerating exactly its entries. -/
def IsOrder (order : List (Sigma fun _ : String => Item V))
    (m : Finmap (fun _ : String => Item V)) : Prop :=
  (order : Multiset (Sigma fun _ : String => Item V)) = m.entries

/-- A mutating call on a table. -/
inductive Op (V : Type) where
  | add (key : String) (item : Option V) (weight : Int64)
  | delete (key : String)

/-- The table after one mutating call. -/
def Op.apply (wt : WeightTable V) : Op V → WeightTable V
  | .add key item weight => (Add wt key item weight).1
  | .delete key => Delete wt key

/-- The table after a sequence of mutating calls, applied left to right. -/
def runOps (wt : WeightTable V) (ops : List (Op V)) : WeightTable V :=
  ops.foldl Op.apply wt

instance [DecidableEq V] (order : List (Sigma fun _ : String => Item V))
    (m : Finmap (fun _ : String => Item V)) : Decidable (IsOrder order m) := by
  unfold IsOrder; infer_instance

/-- Sum of the weights of the entries of a list. -/
def listSum (l : List (Sigma fun _ : String => Item V)) : Int :=
  (l.map fun e => e.2.weight.val).sum

/-- Sum of the weights that the loop of `Get` subtracts before it reaches key `k`. -/
def before (k : String) : List (Sigma fun _ : String => Item V) → Int
  | [] => 0
  | e :: rest => if e.1 = k then 0 else e.2.weight.val + before k rest

/-- The relation that `Add` and `Delete` keep between `totalWeight` and the
stored weights: equality modulo `2^64`. -/
def SumInv (wt : WeightTable V) : Prop :=
  wt.totalWeight.val = wrapInt64 (sumWeights wt.items)

/-! ## float64 -/

/-- Number of binary digits of `n`, by halving at most `fuel` times. -/
def bitLength : Nat → Nat → Nat
  | 0, _ => 0
  | fuel + 1, n => if n = 0 then 0 else bitLength fuel (n / 2) + 1

/-- A finite `float64` in the normal range: the number `mant * 2 ^ exp`, with
`mant = 0` and `exp = 0` for zero and `2^52 ≤ |mant| < 2^53` otherwise.  The
exponent is not bounded: the values `GetProbability` computes from `int64`
weights lie between `2^-64` and `2^77` in magnitude, far inside the normal
range of `float64`. -/
structure F64 where
  mant : Int
  exp : Int
  deriving DecidableEq

namespace F64

/-- The constant `0.0`. -/
def zero : F64 := ⟨0, 0⟩

/-- A pair `(num, den)` with `num / den = a / (d * 2 ^ e)`. -/
def scaled (a d : Nat) (e : Int) : Nat × Nat :=
  if 0 ≤ e then (a, d * 2 ^ e.toNat) else (a * 2 ^ (-e).toNat, d)

/-- The exponent `e` with `2^52 ≤ a / (d * 2^e) < 2^53`, for `a` and `d`
positive: `e0` or `e0 - 1`, where `e0` is the difference of the bit lengths of
`a` and `d`, less 52. -/
def exponent (a d : Nat) : Int :=
  let e0 : Int := (bitLength a a : Int) - (bitLength d d : Int) - 52
  if (scaled a d e0).2 * 2 ^ 52 ≤ (scaled a d e0).1 then e0 else e0 - 1

/-- The integer nearest to `num / den`, ties to the even one. -/
def nearest (num den : Nat) : Nat :=
  let m := num / den
  let r := num % den
  if 2 * r < den then m else if den < 2 * r then m + 1
  else if m % 2 = 0 then m else m + 1

/-- The `float64` nearest to the rational `n / d`, ties to the even mantissa:
IEEE 754 round-to-nearest-even, the rounding of every Go `float64`
operation.  The mantissa is `|n| / (d * 2^e)` rounded to an integer, for the
exponent `e` that puts this quotient in `[2^52, 2^53)`. -/
def roundRat (n : Int) (d : Nat) : F64 :=
  if n = 0 ∨ d = 0 then zero
  else
    let e := exponent n.natAbs d
    let m1 := nearest (scaled n.natAbs d e).1 (scaled n.natAbs d e).2
    if m1 = 2 ^ 53 then ⟨n.sign * 2 ^ 52, e + 1⟩ else ⟨n.sign * m1, e⟩

/-- The `float64` nearest to `(n / d) * 2 ^ e`. -/
def ofScaled (n : Int) (d : Nat) (e : Int) : F64 :=
  if 0 ≤ e then roundRat (n * 2 ^ e.toNat) d else roundRat n (d * 2 ^ (-e).toNat)

/-- The conversion `float64(x)` of an `int64`. -/
def ofInt64 (x : Int64) : F64 := roundRat x.val 1

/-- The `float64` constant written as the integer literal `n`. -/
def ofInt (n : Int) : F64 := roundRat n 1

/-- Go `a / b` on `float64`, for `b` non-zero. -/
def div (a b : F64) : F64 :=
  ofScaled (b.mant.sign * a.mant) b.mant.natAbs (a.exp - b.exp)

/-- Go `a * b` on `float64`. -/
def mul (a b : F64) : F64 := ofScaled (a.mant * b.mant) 1 (a.exp + b.exp)

/-- The function `math.Round`: the nearest integer, halves away from zero. -/
def round (a : F64) : F64 :=
  if 0 ≤ a.exp then a
  else
    let s : Nat := (-a.exp).toNat
    let q : Nat := (a.mant.natAbs + 2 ^ (s - 1)) / 2 ^ s
    roundRat (a.mant.sign * (q : Int)) 1

/-- The rational number a `float64` denotes. -/
def toRat (f : F64) : ℚ := f.mant * (2 : ℚ) ^ f.exp

end F64

/-- The method `GetProbability`. -/
def GetProbability (wt : WeightTable V) (key : String) : F64 :=
  if wt.totalWeight.val = 0 then F64.zero
  else
    match wt.items.lookup key with
    | some item =>
      F64.div (F64.round (F64.mul (F64.mul
        (F64.div (F64.ofInt64 item.weight) (F64.ofInt64 wt.totalWeight))
        (F64.ofInt 100)) (F64.ofInt 100))) (F64.ofInt 100)
    | none => F64.zero

/-- The integer nearest to `p / q`, halves away from zero (`q ≠ 0`). -/
def halfAwayRound (p q : Int) : Int :=
  (p.sign * q.sign) * (((2 * p.natAbs + q.natAbs) / (2 * q.natAbs) : Nat) : Int)

/-- The percentage as the specification words it: `weight / totalWeight * 100`
rounded half away from zero to two decimal places, that is
`round(weight * 10000 / totalWeight) / 100`, as a `float64`. -/
def specProbability (weight totalWeight : Int) : F64 :=
  F64.roundRat (halfAwayRound (weight * 10000) totalWeight) 100

/-! ## Tables used as concrete inputs -/

/-- The largest `int64`. -/
def maxInt64 : Int64 := Int64.ofInt 9223372036854775807

/-- Two entries of weight `2^63 - 1` each. -/
def exOverflowOps : List (Op Nat) :=
  [Op.add "a" (some 0) maxInt64, Op.add "b" (some 0) maxInt64]

/-- One entry `a` of weight `2^63 - 1`. -/
def exMax : WeightTable Nat := (Add New "a" (some 0) maxInt64).1

/-- Entries `a` and `b` of weight `2^63 - 1` each. -/
def exOverflow : WeightTable Nat := runOps New exOverflowOps

/-- The table of `TestGet`: `item1` of weight 10 and `item2` of weight 20. -/
def exTwo : WeightTable String :=
  runOps New [Op.add "item1" (some "data1") (Int64.ofInt 10),
    Op.add "item2" (some "data2") (Int64.ofInt 20)]

/-- An iteration order of `exTwo`. -/
def exTwoOrder : List (Sigma fun _ : String => Item String) :=
  [⟨"item2", ⟨Int64.ofInt 20, some "data2"⟩⟩, ⟨"item1", ⟨Int64.ofInt 10, some "data1"⟩⟩]

/-- The table of `TestClean` before `clean()`: `item1` of weight 10. -/
def exItem1 : WeightTable String := (Add New "item1" (some "data1") (Int64.ofInt 10)).1

/-- The table of `TestProbabilityRounding`: weights 1, 1000 and 500. -/
def exRounding : WeightTable String :=
  runOps New [Op.add "item1" (some "data1") (Int64.ofInt 1),
    Op.add "item2" (some "data2") (Int64.ofInt 1000),
    Op.add "item3" (some "data3") (Int64.ofInt 500)]

/-- The table of `TestGetProbability`: weights 10, 30 and 60. -/
def exPercent : WeightTable String :=
  runOps New [Op.add "item1" (some "data1") (Int64.ofInt 10),
    Op.add "item2" (some "data2") (Int64.ofInt 30),
    Op.add "item3" (some "data3") (Int64.ofInt 60)]

/-- Weights 23 and 137, of total 160. -/
def exTie : WeightTable String :=
  runOps New [Op.add "a" (some "x") (Int64.ofInt 23),
    Op.add "b" (some "y") (Int64.ofInt 137)]

/-! ## Further operations, call sequences and inputs -/

/-- The method `GetAllProbabilities`.  `order` is the order in which
`range wt.items` yields the entries; the result is the map `probabilities`. -/
def GetAllProbabilities (wt : WeightTable V) (order : List (Sigma fun _ : String => Item V)) :
    Finmap (fun _ : String => F64) :=
  if wt.totalWeight.val = 0 then ∅
  else
    order.foldl (fun probabilities e =>
      probabilities.insert e.1
        (F64.div (F64.round (F64.mul (F64.mul
          (F64.div (F64.ofInt64 e.2.weight) (F64.ofInt64 wt.totalWeight))
          (F64.ofInt 100)) (F64.ofInt 100))) (F64.ofInt 100))) ∅

/-- The value `randomNumber` of `Get` before the loop: `int64(draw) + 1` for
the number `draw` returned by `rand.IntN`. -/
def randomNumber (draw : Int) : Int64 := (Int64.ofInt draw).add (Int64.ofInt 1)

/-- Reduction of an integer into the range `[-2^(bits-1), 2^(bits-1))` of a
signed integer of `bits` bits, modulo `2^bits`. -/
def wrapBits (bits : Nat) (x : Int) : Int :=
  (x + 2 ^ (bits - 1)) % 2 ^ bits - 2 ^ (bits - 1)

/-- The conversion `int(x)` of an `int64` on a target whose `int` has `intBits`
bits: the value is kept when `intBits` is 64 and truncated when it is 32. -/
def toInt (intBits : Nat) (x : Int64) : Int := wrapBits intBits x.val

/-- The function `rand.IntN`: it panics (`none`) when `n <= 0` and otherwise
returns a number of `[0, n)`, here the one that the state `pick` of the random
source selects. -/
def randIntN (pick : Int) (n : Int) : Option Int :=
  if n ≤ 0 then none else some (pick % n)

/-- The method `Get` with its call of `rand.IntN` explicit, on a target whose
`int` has `intBits` bits: `none` when the call panics. -/
def GetOn (intBits : Nat) (pick : Int) (wt : WeightTable V)
    (order : List (Sigma fun _ : String => Item V)) : Option (String × Option V) :=
  if wt.totalWeight.val ≤ 0 then some ("", none)
  else
    match randIntN pick (toInt intBits wt.totalWeight) with
    | none => none
    | some draw => some (scan (randomNumber draw) order)

/-- One entry `a` of weight `2^32`. -/
def exWide : WeightTable String := (Add New "a" (some "x") (Int64.ofInt 4294967296)).1

/-- A mutating call on a table, the teardown included. -/
inductive Mutation (V : Type) where
  | add (key : String) (item : Option V) (weight : Int64)
  | delete (key : String)
  | clean

/-- The table after one mutating call. -/
def Mutation.apply (wt : WeightTable V) : Mutation V → WeightTable V
  | .add key item weight => (Add wt key item weight).1
  | .delete key => Delete wt key
  | .clean => RandomWeightTable.clean wt

/-- The table after a sequence of mutating calls, applied left to right. -/
def runMutations (wt : WeightTable V) (calls : List (Mutation V)) : WeightTable V :=
  calls.foldl Mutation.apply wt

/-- Whether every `Add` of the sequence that meets its key in the table leaves
the sum `itm.weight + weight` within `int64`. -/
def weightsFit (wt : WeightTable V) : List (Mutation V) → Bool
  | [] => true
  | .add key item weight :: rest =>
    (match wt.items.lookup key with
      | some itm => decide (itm.weight.val + weight.val ≤ 9223372036854775807)
      | none => true) &&
    weightsFit (Add wt key item weight).1 rest
  | .delete key :: rest => weightsFit (Delete wt key) rest
  | .clean :: rest => weightsFit (clean wt) rest

/-- Entries `a`, `b`, `c` of weights 1, 1000 and 500. -/
def exABC : WeightTable String :=
  runOps New [Op.add "a" (some "x") (Int64.ofInt 1),
    Op.add "b" (some "y") (Int64.ofInt 1000),
    Op.add "c" (some "z") (Int64.ofInt 500)]

/-- An iteration order of `exABC`. -/
def exABCOrder : List (Sigma fun _ : String => Item String) :=
  [⟨"b", ⟨Int64.ofInt 1000, some "y"⟩⟩, ⟨"c", ⟨Int64.ofInt 500, some "z"⟩⟩,
    ⟨"a", ⟨Int64.ofInt 1, some "x"⟩⟩]

/-- An iteration order of `exPercent`. -/
def exPercentOrder : List (Sigma fun _ : String => Item String) :=
  [⟨"item3", ⟨Int64.ofInt 60, some "data3"⟩⟩, ⟨"item1", ⟨Int64.ofInt 10, some "data1"⟩⟩,
    ⟨"item2", ⟨Int64.ofInt 30, some "data2"⟩⟩]

/-- What `Add` guarantees of every stored entry: a non-empty key and a non-nil value. -/
def Sound (wt : WeightTable V) : Prop :=
  ∀ k itm, wt.items.lookup k = some itm → k ≠ "" ∧ itm.item ≠ none

/-- The number of integers `r` in `[1, totalWeight]` for which `Get`, having
drawn `r - 1` (so that `randomNumber` is `r`) and visiting the entries in
`order`, returns key `k`. -/
def selectionCount (wt : WeightTable V) (order : List (Sigma fun _ : String => Item V))
    (k : String) : Nat :=
  ((Finset.Icc 1 wt.totalWeight.val).filter fun r => (Get wt (r - 1) order).1 = k).card

/-- The fraction of the integers `r` in `[1, totalWeight]` that select key `k`,
as a percentage. -/
def selectionPercent (wt : WeightTable V) (order : List (Sigma fun _ : String => Item V))
    (k : String) : ℚ :=
  (selectionCount wt order k : ℚ) / (wt.totalWeight.val : ℚ) * 100

/-- The calls `Add("item1", "data1", 10)` and `clean()` of `TestClean`. -/
def exCleanCalls : List (Mutation String) :=
  [Mutation.add "item1" (some "data1") (Int64.ofInt 10), Mutation.clean]

/-- The calls `Add("a", 0, 2^63-1)` and `Add("a", nil, 1)`. -/
def exWrapCalls : List (Mutation Nat) :=
  [Mutation.add "a" (some 0) maxInt64, Mutation.add "a" none (Int64.ofInt 1)]

/-- The three accepted calls of `TestAdd`, a rejected `Add` of weight 0, a
`Delete` of an absent key, `clean`, and one more `Add`. -/
def exFitCalls : List (Mutation String) :=
  [Mutation.add "item1" (some "data1") (Int64.ofInt 10),
    Mutation.add "item1" none (Int64.ofInt 5),
    Mutation.add "item1" (some "updatedData") (Int64.ofInt 5),
    Mutation.add "item2" (some "data2") (Int64.ofInt 0),
    Mutation.delete "item3", Mutation.clean,
    Mutation.add "item2" (some "data2") (Int64.ofInt 7)]

/-! ## Auxiliary facts -/

theorem insert_entries (k : String) (v : Item V) (m : Finmap (fun _ : String => Item V)) :
    (m.insert k v).entries = ⟨k, v⟩ ::ₘ (m.erase k).entries := by
  have h : m.insert k v = (m.erase k).insert k v := by
    apply Finmap.ext_lookup
    intro x
    by_cases hx : x = k
    · subst hx; simp
    · simp [Finmap.lookup_insert_of_ne _ hx, Finmap.lookup_erase_ne hx]
  rw [h]
  exact Finmap.insert_entries_of_neg Finmap.not_mem_erase_self

theorem entries_of_lookup {k : String} {v : Item V} {m : Finmap (fun _ : String => Item V)}
    (h : m.lookup k = some v) : m.entries = ⟨k, v⟩ ::ₘ (m.erase k).entries := by
  have h1 : m.insert k v = m := by
    apply Finmap.ext_lookup
    intro x
    by_cases hx : x = k
    · subst hx; simp [h]
    · simp [Finmap.lookup_insert_of_ne _ hx]
  rw [← insert_entries, h1]

theorem sumWeights_empty : sumWeights (∅ : Finmap (fun _ : String => Item V)) = 0 := rfl

theorem sumWeights_insert (k : String) (v : Item V) (m : Finmap (fun _ : String => Item V)) :
    sumWeights (m.insert k v) = v.weight.val + sumWeights (m.erase k) := by
  simp [sumWeights, insert_entries]

theorem sumWeights_of_lookup {k : String} {v : Item V} {m : Finmap (fun _ : String => Item V)}
    (h : m.lookup k = some v) : sumWeights m = v.weight.val + sumWeights (m.erase k) := by
  simp [sumWeights, entries_of_lookup h]

theorem sumWeights_erase_of_none {k : String} {m : Finmap (fun _ : String => Item V)}
    (h : m.lookup k = none) : m.erase k = m := by
  apply Finmap.ext_lookup
  intro x
  by_cases hx : x = k
  · subst hx; simp [h]
  · simp [Finmap.lookup_erase_ne hx]

theorem wrapInt64_of_range {x : Int} (h1 : -9223372036854775808 ≤ x) (h2 : x ≤ 9223372036854775807) :
    wrapInt64 x = x := by
  unfold wrapInt64; omega

theorem utf8ByteSize_eq_zero (key : String) : key.utf8ByteSize = 0 ↔ key = "" := by
  constructor
  · intro h
    rcases key with ⟨cs⟩
    cases cs with
    | nil => rfl
    | cons c cs =>
      have hc := Char.utf8Size_pos c
      simp only [String.utf8ByteSize, String.utf8ByteSize.go] at h
      omega
  · rintro rfl; rfl

theorem Add_sumInv (wt : WeightTable V) (key : String) (item : Option V) (weight : Int64)
    (h : SumInv wt) : SumInv (Add wt key item weight).1 := by
  unfold Add
  split
  · exact h
  · split
    · rename_i hl
      split
      · exact h
      · simp only [SumInv, Int64.add, Int64.ofInt, sumWeights_insert, sumWeights_erase_of_none hl]
        rw [h]; unfold wrapInt64; omega
    · rename_i itm hl
      have hs := sumWeights_of_lookup hl
      simp only [SumInv, Int64.add, Int64.ofInt, sumWeights_insert]
      rw [h, hs]
      split <;> (simp only []; unfold wrapInt64; omega)

theorem Delete_sumInv (wt : WeightTable V) (key : String) (h : SumInv wt) :
    SumInv (Delete wt key) := by
  unfold Delete
  split
  · rename_i itm hl
    have hs := sumWeights_of_lookup hl
    simp only [SumInv, Int64.sub, Int64.ofInt]
    rw [h, hs]; unfold wrapInt64; omega
  · exact h

theorem New_sumInv : SumInv (New : WeightTable V) := by
  simp [SumInv, New, sumWeights_empty, Int64.ofInt, wrapInt64]

theorem runOps_sumInv (ops : List (Op V)) (wt : WeightTable V) (h : SumInv wt) :
    SumInv (runOps wt ops) := by
  induction ops generalizing wt with
  | nil => exact h
  | cons op ops ih =>
    simp only [runOps, List.foldl_cons]
    apply ih
    cases op with
    | add key item weight => exact Add_sumInv wt key item weight h
    | delete key => exact Delete_sumInv wt key h

theorem before_nonneg (k : String) (l : List (Sigma fun _ : String => Item V))
    (hpos : ∀ e ∈ l, 0 < e.2.weight.val) : 0 ≤ before k l := by
  induction l with
  | nil => simp [before]
  | cons e rest ih =>
    have h1 := hpos e (List.mem_cons_self _ _)
    have h2 := ih fun x hx => hpos x (List.mem_cons_of_mem _ hx)
    unfold before
    split <;> omega

theorem listSum_cons (e : Sigma fun _ : String => Item V) (rest : List (Sigma fun _ : String => Item V)) :
    listSum (e :: rest) = e.2.weight.val + listSum rest := by
  simp [listSum]

theorem listSum_nonneg (l : List (Sigma fun _ : String => Item V))
    (hpos : ∀ e ∈ l, 0 < e.2.weight.val) : 0 ≤ listSum l := by
  induction l with
  | nil => simp [listSum]
  | cons e rest ih =>
    have h1 := hpos e (List.mem_cons_self _ _)
    have h2 := ih fun x hx => hpos x (List.mem_cons_of_mem _ hx)
    rw [listSum_cons]; omega

theorem before_add_le (k : String) (itm : Item V) (l : List (Sigma fun _ : String => Item V))
    (hpos : ∀ e ∈ l, 0 < e.2.weight.val) (hnd : l.NodupKeys) (hmem : (⟨k, itm⟩ : Sigma fun _ : String => Item V) ∈ l) :
    before k l + itm.weight.val ≤ listSum l := by
  induction l with
  | nil => simp at hmem
  | cons e rest ih =>
    have h1 := hpos e (List.mem_cons_self _ _)
    have hposr : ∀ x ∈ rest, 0 < x.2.weight.val := fun x hx => hpos x (List.mem_cons_of_mem _ hx)
    have h2 := listSum_nonneg rest hposr
    rw [listSum_cons]
    rw [List.nodupKeys_cons] at hnd
    unfold before
    rcases List.mem_cons.1 hmem with h | h
    · subst h
      simp
      omega
    · have hne : e.1 ≠ k := by
        intro he
        apply hnd.1
        rw [he]
        exact List.mem_keys_of_mem h
      rw [if_neg hne]
      have := ih hposr hnd.2 h
      omega

theorem sub_val (r w : Int64) (hr : 0 < r.val) (hw : 0 < w.val) :
    (r.sub w).val = r.val - w.val := by
  have h1 := r.hi
  have h2 := w.hi
  simp only [Int64.sub, Int64.ofInt, wrapInt64]
  omega

theorem scan_mem (l : List (Sigma fun _ : String => Item V)) (hpos : ∀ e ∈ l, 0 < e.2.weight.val)
    (r : Int64) (h1 : 0 < r.val) (h2 : r.val ≤ listSum l) :
    ∃ e ∈ l, scan r l = (e.1, e.2.item) := by
  induction l generalizing r with
  | nil => simp [listSum] at h2; omega
  | cons e rest ih =>
    have hw := hpos e (List.mem_cons_self _ _)
    have hposr : ∀ x ∈ rest, 0 < x.2.weight.val := fun x hx => hpos x (List.mem_cons_of_mem _ hx)
    rw [listSum_cons] at h2
    obtain ⟨key, item⟩ := e
    simp only [] at hw h2
    simp only [scan]
    have hs := sub_val r item.weight h1 hw
    split
    · exact ⟨⟨key, item⟩, List.mem_cons_self _ _, rfl⟩
    · rename_i hgt
      obtain ⟨e, he, hscan⟩ := ih hposr (r.sub item.weight) (by omega) (by omega)
      exact ⟨e, List.mem_cons_of_mem _ he, hscan⟩

theorem scan_key_iff (l : List (Sigma fun _ : String => Item V)) (hpos : ∀ e ∈ l, 0 < e.2.weight.val)
    (hnd : l.NodupKeys) (k : String) (itm : Item V)
    (hmem : (⟨k, itm⟩ : Sigma fun _ : String => Item V) ∈ l)
    (r : Int64) (h1 : 0 < r.val) (h2 : r.val ≤ listSum l) :
    (scan r l).1 = k ↔ before k l < r.val ∧ r.val ≤ before k l + itm.weight.val := by
  induction l generalizing r with
  | nil => simp at hmem
  | cons e rest ih =>
    have hw := hpos e (List.mem_cons_self _ _)
    have hposr : ∀ x ∈ rest, 0 < x.2.weight.val := fun x hx => hpos x (List.mem_cons_of_mem _ hx)
    rw [listSum_cons] at h2
    rw [List.nodupKeys_cons] at hnd
    obtain ⟨key, item⟩ := e
    simp only [] at hw h2 hnd
    have hs := sub_val r item.weight h1 hw
    simp only [scan, before]
    by_cases hk : key = k
    · subst hk
      have hitm : itm = item := by
        rcases List.mem_cons.1 hmem with h | h
        · cases h; rfl
        · exact absurd (List.mem_keys_of_mem h) hnd.1
      subst hitm
      simp only [if_true]
      split
      · simp; omega
      · rename_i hgt
        obtain ⟨e, he, hscan⟩ := scan_mem rest hposr (r.sub itm.weight) (by omega) (by omega)
        rw [hscan]
        constructor
        · intro h
          simp only [] at h
          exact absurd (h ▸ List.mem_keys_of_mem (s := ⟨e.1, e.2⟩) he) hnd.1
        · intro h; omega
    · have hmem2 : (⟨k, itm⟩ : Sigma fun _ : String => Item V) ∈ rest := by
        rcases List.mem_cons.1 hmem with h | h
        · cases h; exact absurd rfl hk
        · exact h
      have hb := before_nonneg k rest hposr
      rw [if_neg hk]
      split
      · simp only []
        constructor
        · intro h; exact absurd h hk
        · intro h; omega
      · rename_i hgt
        rw [ih hposr hnd.2 hmem2 (r.sub item.weight) (by omega) (by omega)]
        omega

theorem IsOrder.nodupKeys {order : List (Sigma fun _ : String => Item V)}
    {m : Finmap (fun _ : String => Item V)} (h : IsOrder order m) : order.NodupKeys := by
  have := m.nodupKeys
  rw [← h] at this
  exact Multiset.coe_nodupKeys.1 this

theorem IsOrder.mem_iff {order : List (Sigma fun _ : String => Item V)}
    {m : Finmap (fun _ : String => Item V)} (h : IsOrder order m) (k : String) (itm : Item V) :
    (⟨k, itm⟩ : Sigma fun _ : String => Item V) ∈ order ↔ m.lookup k = some itm := by
  rw [Finmap.lookup_eq_some_iff, ← h]
  simp

theorem IsOrder.listSum_eq {order : List (Sigma fun _ : String => Item V)}
    {m : Finmap (fun _ : String => Item V)} (h : IsOrder order m) :
    listSum order = sumWeights m := by
  unfold sumWeights listSum
  rw [← h]
  simp

theorem randomNumber_val (r : Int) (h1 : 1 ≤ r) (h2 : r ≤ 9223372036854775807) :
    ((Int64.ofInt (r - 1)).add (Int64.ofInt 1)).val = r := by
  simp only [Int64.add, Int64.ofInt, wrapInt64]
  omega

theorem Add_of_reject (wt : WeightTable V) (key : String) (item : Option V) (weight : Int64)
    (h : weight.val ≤ 0 ∨ key = "") : Add wt key item weight = (wt, false) := by
  have h1 : weight.val ≤ 0 ∨ key.utf8ByteSize = 0 := by rwa [utf8ByteSize_eq_zero]
  unfold Add
  rw [if_pos h1]

theorem Add_of_new_nil (wt : WeightTable V) (key : String) (weight : Int64)
    (hl : wt.items.lookup key = none) : Add wt key none weight = (wt, false) := by
  unfold Add
  split
  · rfl
  · rw [hl]; rfl

theorem Add_of_new (wt : WeightTable V) (key : String) (v : V) (weight : Int64)
    (hw : 0 < weight.val) (hkey : key ≠ "") (hl : wt.items.lookup key = none) :
    Add wt key (some v) weight
      = ({ items := wt.items.insert key { weight := weight, item := some v },
           totalWeight := wt.totalWeight.add weight }, true) := by
  have h1 : ¬ (weight.val ≤ 0 ∨ key.utf8ByteSize = 0) := by
    rw [utf8ByteSize_eq_zero]; simp [hkey]; omega
  unfold Add
  rw [if_neg h1, hl]
  rfl

theorem Add_of_existing (wt : WeightTable V) (key : String) (item : Option V) (weight : Int64)
    (itm : Item V) (hw : 0 < weight.val) (hkey : key ≠ "") (hl : wt.items.lookup key = some itm) :
    Add wt key item weight
      = ({ items := wt.items.insert key
            { weight := itm.weight.add weight, item := if item.isSome then item else itm.item },
           totalWeight := wt.totalWeight.add weight }, true) := by
  have h1 : ¬ (weight.val ≤ 0 ∨ key.utf8ByteSize = 0) := by
    rw [utf8ByteSize_eq_zero]; simp [hkey]; omega
  unfold Add
  rw [if_neg h1, hl]
  cases item <;> rfl

theorem Delete_of_absent (wt : WeightTable V) (key : String) (h : wt.items.lookup key = none) :
    Delete wt key = wt := by
  unfold Delete; rw [h]

theorem Delete_of_present (wt : WeightTable V) (key : String) (itm : Item V)
    (h : wt.items.lookup key = some itm) :
    Delete wt key = { items := wt.items.erase key, totalWeight := wt.totalWeight.sub itm.weight } := by
  unfold Delete; rw [h]

/-! ### Accuracy of the `float64` operations -/

theorem bitLength_zero (fuel : Nat) : bitLength fuel 0 = 0 := by
  cases fuel <;> simp [bitLength]

theorem bitLength_bounds (fuel n : Nat) (hn : 0 < n) (hf : n ≤ fuel) :
    1 ≤ bitLength fuel n ∧ 2 ^ (bitLength fuel n - 1) ≤ n ∧ n < 2 ^ bitLength fuel n := by
  induction fuel generalizing n with
  | zero => omega
  | succ f ih =>
    have hne : n ≠ 0 := by omega
    simp only [bitLength, if_neg hne]
    by_cases h2 : n / 2 = 0
    · have h1 : n = 1 := by omega
      subst h1
      simp [bitLength_zero]
    · obtain ⟨k1, k2, k3⟩ := ih (n / 2) (by omega) (by omega)
      refine ⟨by omega, ?_, ?_⟩
      · have : bitLength f (n / 2) + 1 - 1 = (bitLength f (n / 2) - 1) + 1 := by omega
        rw [this, pow_succ]
        omega
      · rw [pow_succ]
        omega

/-- The ratio kept by `scaled`. -/
theorem scaled_ratio (a d : Nat) (e : Int) (hd : 0 < d) :
    0 < (F64.scaled a d e).2 ∧
    (((F64.scaled a d e).1 : ℚ) / ((F64.scaled a d e).2 : ℚ)) = (a : ℚ) / d / (2 : ℚ) ^ e := by
  unfold F64.scaled
  have hdq : (d : ℚ) ≠ 0 := by exact_mod_cast hd.ne'
  split
  · rename_i h
    refine ⟨by positivity, ?_⟩
    obtain ⟨k, rfl⟩ := Int.eq_ofNat_of_zero_le h
    simp [div_div]
  · rename_i h
    refine ⟨hd, ?_⟩
    obtain ⟨k, hk⟩ := Int.eq_ofNat_of_zero_le (show 0 ≤ -e by omega)
    have he : e = -(k : Int) := by omega
    subst he
    simp
    field_simp

theorem exponent_spec (a d : Nat) (ha : 0 < a) (hd : 0 < d) :
    (2 : ℚ) ^ 52 ≤ (a : ℚ) / d / (2 : ℚ) ^ (F64.exponent a d) ∧
    (a : ℚ) / d / (2 : ℚ) ^ (F64.exponent a d) < (2 : ℚ) ^ 53 := by
  obtain ⟨a1, a2, a3⟩ := bitLength_bounds a a ha le_rfl
  obtain ⟨d1, d2, d3⟩ := bitLength_bounds d d hd le_rfl
  set la := bitLength a a with hla
  set ld := bitLength d d with hld
  have haq : (0 : ℚ) < a := by exact_mod_cast ha
  have hdq : (0 : ℚ) < d := by exact_mod_cast hd
  have a2q : (2 : ℚ) ^ (la - 1) ≤ a := by exact_mod_cast a2
  have a3q : (a : ℚ) < (2 : ℚ) ^ la := by exact_mod_cast a3
  have d2q : (2 : ℚ) ^ (ld - 1) ≤ d := by exact_mod_cast d2
  have d3q : (d : ℚ) < (2 : ℚ) ^ ld := by exact_mod_cast d3
  have hla2 : (2 : ℚ) ^ la = 2 * (2 : ℚ) ^ (la - 1) := by
    rw [← pow_succ']; congr 1; omega
  have hld2 : (2 : ℚ) ^ ld = 2 * (2 : ℚ) ^ (ld - 1) := by
    rw [← pow_succ']; congr 1; omega
  have hpa : (0 : ℚ) < (2 : ℚ) ^ (la - 1) := by positivity
  have hpd : (0 : ℚ) < (2 : ℚ) ^ (ld - 1) := by positivity
  -- the quotient at the first candidate exponent lies strictly between 2^51 and 2^53
  have he0 : (2 : ℚ) ^ ((la : Int) - (ld : Int) - 52)
      = (2 : ℚ) ^ la / (2 : ℚ) ^ ld / (2 : ℚ) ^ 52 := by
    rw [zpow_sub₀ (by norm_num), zpow_sub₀ (by norm_num)]
    norm_cast
  have hq : (a : ℚ) / d / (2 : ℚ) ^ ((la : Int) - (ld : Int) - 52)
      = (a / (2 : ℚ) ^ la) * ((2 : ℚ) ^ ld / d) * (2 : ℚ) ^ 52 := by
    rw [he0]; field_simp; ring
  have hx1 : (1 : ℚ) / 2 ≤ a / (2 : ℚ) ^ la := by
    rw [div_le_div_iff₀ (by norm_num) (by positivity)]; linarith
  have hx2 : (a : ℚ) / (2 : ℚ) ^ la < 1 := by
    rw [div_lt_one (by positivity)]; exact a3q
  have hy1 : (1 : ℚ) < (2 : ℚ) ^ ld / d := by
    rw [one_lt_div hdq]; exact d3q
  have hy2 : (2 : ℚ) ^ ld / d ≤ 2 := by
    rw [div_le_iff₀ hdq]; linarith
  have hlow : (2 : ℚ) ^ 51 < (a : ℚ) / d / (2 : ℚ) ^ ((la : Int) - (ld : Int) - 52) := by
    rw [hq]
    have : (1 : ℚ) / 2 < (a / (2 : ℚ) ^ la) * ((2 : ℚ) ^ ld / d) := by nlinarith
    have h52 : (2 : ℚ) ^ 51 = 1 / 2 * (2 : ℚ) ^ 52 := by norm_num
    rw [h52]
    exact mul_lt_mul_of_pos_right this (by positivity)
  have hupp : (a : ℚ) / d / (2 : ℚ) ^ ((la : Int) - (ld : Int) - 52) < (2 : ℚ) ^ 53 := by
    rw [hq]
    have : (a / (2 : ℚ) ^ la) * ((2 : ℚ) ^ ld / d) < 2 := by nlinarith
    have h53 : (2 : ℚ) ^ 53 = 2 * (2 : ℚ) ^ 52 := by norm_num
    rw [h53]
    exact mul_lt_mul_of_pos_right this (by positivity)
  obtain ⟨hden, hrat⟩ := scaled_ratio a d ((la : Int) - (ld : Int) - 52) hd
  have hdenq : (0 : ℚ) < ((F64.scaled a d ((la : Int) - (ld : Int) - 52)).2 : ℚ) := by
    exact_mod_cast hden
  unfold F64.exponent
  simp only [← hla, ← hld]
  split
  · rename_i hc
    refine ⟨?_, hupp⟩
    rw [← hrat, le_div_iff₀ hdenq]
    have : ((F64.scaled a d ((la : Int) - (ld : Int) - 52)).2 : ℚ) * (2 : ℚ) ^ 52
        ≤ ((F64.scaled a d ((la : Int) - (ld : Int) - 52)).1 : ℚ) := by exact_mod_cast hc
    linarith
  · rename_i hc
    have hlt : (a : ℚ) / d / (2 : ℚ) ^ ((la : Int) - (ld : Int) - 52) < (2 : ℚ) ^ 52 := by
      rw [← hrat, div_lt_iff₀ hdenq]
      have : ((F64.scaled a d ((la : Int) - (ld : Int) - 52)).1 : ℚ)
          < ((F64.scaled a d ((la : Int) - (ld : Int) - 52)).2 : ℚ) * (2 : ℚ) ^ 52 := by
        exact_mod_cast not_le.1 hc
      linarith
    have hstep : (a : ℚ) / d / (2 : ℚ) ^ ((la : Int) - (ld : Int) - 52 - 1)
        = 2 * ((a : ℚ) / d / (2 : ℚ) ^ ((la : Int) - (ld : Int) - 52)) := by
      rw [zpow_sub₀ (by norm_num) _ 1]
      field_simp; ring
    rw [hstep]
    constructor
    · have h52 : (2 : ℚ) ^ 52 = 2 * (2 : ℚ) ^ 51 := by norm_num
      rw [h52]; linarith
    · have h53 : (2 : ℚ) ^ 53 = 2 * (2 : ℚ) ^ 52 := by norm_num
      rw [h53]; linarith

theorem nearest_spec (num den : Nat) (hden : 0 < den) :
    |(F64.nearest num den : ℚ) - (num : ℚ) / den| ≤ 1 / 2 := by
  have hdq : (0 : ℚ) < den := by exact_mod_cast hden
  have hdiv : (num : ℚ) = (den : ℚ) * (num / den : Nat) + (num % den : Nat) := by
    exact_mod_cast (Nat.div_add_mod num den).symm
  have hr0 : (0 : ℚ) ≤ ((num % den : Nat) : ℚ) := by positivity
  have hfrac : (num : ℚ) / den = (num / den : Nat) + ((num % den : Nat) : ℚ) / den := by
    rw [eq_comm, ← sub_eq_zero]
    field_simp
    linarith
  have ht0 : (0 : ℚ) ≤ ((num % den : Nat) : ℚ) / den := by positivity
  rw [hfrac, abs_le]
  unfold F64.nearest
  simp only []
  by_cases h1 : 2 * (num % den) < den
  · rw [if_pos h1]
    have h1q : (2 : ℚ) * ((num % den : Nat) : ℚ) < den := by exact_mod_cast h1
    have : ((num % den : Nat) : ℚ) / den ≤ 1 / 2 := by
      rw [div_le_div_iff₀ hdq (by norm_num)]; linarith
    constructor <;> linarith
  · rw [if_neg h1]
    have h1q : (den : ℚ) ≤ (2 : ℚ) * ((num % den : Nat) : ℚ) := by exact_mod_cast not_lt.1 h1
    have hge : (1 : ℚ) / 2 ≤ ((num % den : Nat) : ℚ) / den := by
      rw [div_le_div_iff₀ (by norm_num) hdq]; linarith
    have hlt : ((num % den : Nat) : ℚ) / den < 1 := by
      rw [div_lt_one hdq]; exact_mod_cast Nat.mod_lt _ hden
    by_cases h2 : den < 2 * (num % den)
    · rw [if_pos h2]
      push_cast
      constructor <;> linarith
    · rw [if_neg h2]
      have h2q : (2 : ℚ) * ((num % den : Nat) : ℚ) ≤ den := by exact_mod_cast not_lt.1 h2
      have heq : ((num % den : Nat) : ℚ) / den ≤ 1 / 2 := by
        rw [div_le_div_iff₀ hdq (by norm_num)]; linarith
      split
      · constructor <;> linarith
      · push_cast
        constructor <;> linarith

theorem nearest_exact (num : Nat) : F64.nearest num 1 = num := by
  unfold F64.nearest
  simp [Nat.mod_one]

theorem roundRat_toRat (n : Int) (d : Nat) (hn : n ≠ 0) (hd : 0 < d) :
    (F64.roundRat n d).toRat
      = (n.sign : ℚ)
        * (F64.nearest (F64.scaled n.natAbs d (F64.exponent n.natAbs d)).1
            (F64.scaled n.natAbs d (F64.exponent n.natAbs d)).2 : ℚ)
        * (2 : ℚ) ^ (F64.exponent n.natAbs d) := by
  unfold F64.roundRat
  rw [if_neg (by simp [hn]; omega)]
  simp only []
  split
  · rename_i h
    rw [h]
    simp only [F64.toRat]
    rw [zpow_add₀ (by norm_num)]
    push_cast
    ring
  · simp only [F64.toRat]
    push_cast
    ring

theorem sign_cast (n : Int) (hn : n ≠ 0) :
    ((n.sign : ℚ) = 1 ∨ (n.sign : ℚ) = -1) ∧ (n : ℚ) = (n.sign : ℚ) * (n.natAbs : ℚ) := by
  constructor
  · rcases lt_or_gt_of_ne hn with h | h
    · right; rw [Int.sign_eq_neg_one_of_neg h]; simp
    · left; rw [Int.sign_eq_one_of_pos h]; simp
  · have h := Int.sign_mul_natAbs n
    have h2 : ((n.sign * (n.natAbs : Int) : Int) : ℚ) = (n : ℚ) := by rw [h]
    rw [← h2, Int.cast_mul, Int.cast_natCast]

theorem nearest_range (n : Int) (d : Nat) (hn : n ≠ 0) (hd : 0 < d) :
    2 ^ 52 ≤ F64.nearest (F64.scaled n.natAbs d (F64.exponent n.natAbs d)).1
        (F64.scaled n.natAbs d (F64.exponent n.natAbs d)).2 ∧
    F64.nearest (F64.scaled n.natAbs d (F64.exponent n.natAbs d)).1
        (F64.scaled n.natAbs d (F64.exponent n.natAbs d)).2 ≤ 2 ^ 53 := by
  have ha : 0 < n.natAbs := Int.natAbs_pos.2 hn
  obtain ⟨e1, e2⟩ := exponent_spec n.natAbs d ha hd
  obtain ⟨hden, hrat⟩ := scaled_ratio n.natAbs d (F64.exponent n.natAbs d) hd
  have hnear := nearest_spec (F64.scaled n.natAbs d (F64.exponent n.natAbs d)).1 _ hden
  rw [hrat, abs_le] at hnear
  set m1 := F64.nearest (F64.scaled n.natAbs d (F64.exponent n.natAbs d)).1
        (F64.scaled n.natAbs d (F64.exponent n.natAbs d)).2
  constructor
  · by_contra hc
    have : m1 + 1 ≤ 2 ^ 52 := by omega
    have hq : (m1 : ℚ) + 1 ≤ (2 : ℚ) ^ 52 := by exact_mod_cast this
    linarith
  · by_contra hc
    have : 2 ^ 53 + 1 ≤ m1 := by omega
    have hq : (2 : ℚ) ^ 53 + 1 ≤ (m1 : ℚ) := by exact_mod_cast this
    linarith

/-- Rounding to `float64` has relative error at most `2^-53`. -/
theorem roundRat_error (n : Int) (d : Nat) (hn : n ≠ 0) (hd : 0 < d) :
    |(F64.roundRat n d).toRat - (n : ℚ) / d| ≤ |(n : ℚ) / d| / 2 ^ 53 := by
  have ha : 0 < n.natAbs := Int.natAbs_pos.2 hn
  obtain ⟨e1, e2⟩ := exponent_spec n.natAbs d ha hd
  obtain ⟨hden, hrat⟩ := scaled_ratio n.natAbs d (F64.exponent n.natAbs d) hd
  have hnear := nearest_spec (F64.scaled n.natAbs d (F64.exponent n.natAbs d)).1 _ hden
  rw [hrat] at hnear
  rw [roundRat_toRat n d hn hd]
  obtain ⟨hs, hnq⟩ := sign_cast n hn
  set m1 : ℚ := (F64.nearest (F64.scaled n.natAbs d (F64.exponent n.natAbs d)).1
        (F64.scaled n.natAbs d (F64.exponent n.natAbs d)).2 : ℚ)
  set E := F64.exponent n.natAbs d
  have hE : (0 : ℚ) < (2 : ℚ) ^ E := by positivity
  have hdq : (0 : ℚ) < d := by exact_mod_cast hd
  have haq : (0 : ℚ) < (n.natAbs : ℚ) := by exact_mod_cast ha
  set x : ℚ := (n.natAbs : ℚ) / d / (2 : ℚ) ^ E with hx
  have hxe : (n.natAbs : ℚ) / d = x * (2 : ℚ) ^ E := by
    rw [hx]; field_simp; ring
  have hrew : (n.sign : ℚ) * m1 * (2 : ℚ) ^ E - (n : ℚ) / d
      = (n.sign : ℚ) * ((m1 - x) * (2 : ℚ) ^ E) := by
    rw [hnq, mul_div_assoc, hxe]; ring
  have habs : |(n : ℚ) / d| = x * (2 : ℚ) ^ E := by
    rw [hnq, mul_div_assoc, hxe, abs_mul]
    have h1 : |(n.sign : ℚ)| = 1 := by rcases hs with h | h <;> rw [h] <;> simp
    rw [h1, one_mul, abs_of_pos]
    have : (0 : ℚ) < x := by linarith [show (0 : ℚ) < (2 : ℚ) ^ 52 by positivity]
    positivity
  rw [hrew, habs, abs_mul, abs_mul]
  have h1 : |(n.sign : ℚ)| = 1 := by rcases hs with h | h <;> rw [h] <;> simp
  rw [h1, one_mul, abs_of_pos hE]
  have h53 : (2 : ℚ) ^ 53 = 2 * (2 : ℚ) ^ 52 := by norm_num
  rw [le_div_iff₀ (by positivity)]
  have : |m1 - x| * (2 : ℚ) ^ 53 ≤ x := by
    rw [h53]
    nlinarith [abs_nonneg (m1 - x)]
  calc |m1 - x| * (2 : ℚ) ^ E * (2 : ℚ) ^ 53 = (|m1 - x| * (2 : ℚ) ^ 53) * (2 : ℚ) ^ E := by ring
    _ ≤ x * (2 : ℚ) ^ E := mul_le_mul_of_nonneg_right this hE.le

theorem toRat_zero : F64.zero.toRat = 0 := by simp [F64.zero, F64.toRat]

theorem roundRat_zero (d : Nat) : F64.roundRat 0 d = F64.zero := by
  simp [F64.roundRat]

theorem roundRat_error_all (n : Int) (d : Nat) (hd : 0 < d) :
    |(F64.roundRat n d).toRat - (n : ℚ) / d| ≤ |(n : ℚ) / d| / 2 ^ 53 := by
  by_cases hn : n = 0
  · subst hn; simp [roundRat_zero, toRat_zero]
  · exact roundRat_error n d hn hd

theorem roundRat_mant_lt (n : Int) (d : Nat) : (F64.roundRat n d).mant.natAbs < 2 ^ 53 := by
  by_cases h : n = 0 ∨ d = 0
  · unfold F64.roundRat; rw [if_pos h]; simp [F64.zero]
  · rw [not_or] at h
    obtain ⟨r1, r2⟩ := nearest_range n d h.1 (by omega)
    have hs : n.sign.natAbs = 1 := by
      rcases lt_or_gt_of_ne h.1 with hlt | hgt
      · rw [Int.sign_eq_neg_one_of_neg hlt]; rfl
      · rw [Int.sign_eq_one_of_pos hgt]; rfl
    unfold F64.roundRat
    rw [if_neg (by simp [h.1, h.2])]
    simp only []
    split
    · simp only [Int.natAbs_mul, hs]
      norm_num [Int.natAbs_pow]
    · rename_i hne
      simp only [Int.natAbs_mul, hs, Int.natAbs_ofNat, one_mul]
      omega

theorem roundRat_int_exact (k : Int) (hk : k.natAbs < 2 ^ 53) :
    (F64.roundRat k 1).toRat = k := by
  by_cases hn : k = 0
  · subst hn; simp [roundRat_zero, toRat_zero]
  have ha : 0 < k.natAbs := Int.natAbs_pos.2 hn
  obtain ⟨e1, _⟩ := exponent_spec k.natAbs 1 ha Nat.one_pos
  obtain ⟨_, hnq⟩ := sign_cast k hn
  have haq : (k.natAbs : ℚ) < (2 : ℚ) ^ 53 := by exact_mod_cast hk
  rw [roundRat_toRat k 1 hn Nat.one_pos]
  set E := F64.exponent k.natAbs 1 with hE
  have hEpos : (0 : ℚ) < (2 : ℚ) ^ E := by positivity
  have hE0 : E ≤ 0 := by
    by_contra hc
    have h1 : (1 : Int) ≤ E := by omega
    have h2 : (2 : ℚ) ^ (1 : Int) ≤ (2 : ℚ) ^ E := zpow_le_zpow_right₀ (by norm_num) h1
    rw [zpow_one] at h2
    simp only [Nat.cast_one, div_one] at e1
    rw [le_div_iff₀ hEpos] at e1
    have h53 : (2 : ℚ) ^ 53 = 2 * (2 : ℚ) ^ 52 := by norm_num
    nlinarith
  obtain ⟨j, hj⟩ := Int.eq_ofNat_of_zero_le (show 0 ≤ -E by omega)
  have hEj : E = -(j : Int) := by omega
  have hsc : F64.scaled k.natAbs 1 E = (k.natAbs * 2 ^ j, 1) := by
    unfold F64.scaled
    by_cases h0 : 0 ≤ E
    · have : j = 0 := by omega
      subst this
      have : E = 0 := by omega
      rw [this]; simp
    · rw [if_neg h0, hj]; simp
  rw [hsc]
  simp only [nearest_exact]
  rw [hnq, hEj, zpow_neg, zpow_natCast]
  push_cast
  field_simp
  ring

theorem ofScaled_error (n : Int) (d : Nat) (e : Int) (hd : 0 < d) :
    |(F64.ofScaled n d e).toRat - (n : ℚ) / d * (2 : ℚ) ^ e|
      ≤ |(n : ℚ) / d * (2 : ℚ) ^ e| / 2 ^ 53 := by
  have hdq : (d : ℚ) ≠ 0 := by exact_mod_cast hd.ne'
  unfold F64.ofScaled
  split
  · rename_i h
    obtain ⟨k, rfl⟩ := Int.eq_ofNat_of_zero_le h
    have := roundRat_error_all (n * 2 ^ (k : Int).toNat) d hd
    have hv : ((n * 2 ^ (k : Int).toNat : Int) : ℚ) / d = (n : ℚ) / d * (2 : ℚ) ^ (k : Int) := by
      simp; ring
    rwa [hv] at this
  · rename_i h
    obtain ⟨k, hk⟩ := Int.eq_ofNat_of_zero_le (show 0 ≤ -e by omega)
    have he : e = -(k : Int) := by omega
    subst he
    have := roundRat_error_all n (d * 2 ^ (-(-(k : Int))).toNat) (by positivity)
    have hv : (n : ℚ) / ((d * 2 ^ (-(-(k : Int))).toNat : Nat) : ℚ)
        = (n : ℚ) / d * (2 : ℚ) ^ (-(k : Int)) := by
      simp; field_simp
    rwa [hv] at this

theorem ofScaled_mant_lt (n : Int) (d : Nat) (e : Int) :
    (F64.ofScaled n d e).mant.natAbs < 2 ^ 53 := by
  unfold F64.ofScaled
  split <;> exact roundRat_mant_lt _ _

theorem toRat_eq_zero_iff (a : F64) : a.toRat = 0 ↔ a.mant = 0 := by
  unfold F64.toRat
  have : (2 : ℚ) ^ a.exp ≠ 0 := by positivity
  simp [this]

theorem div_error (a b : F64) (hb : b.mant ≠ 0) :
    |(F64.div a b).toRat - a.toRat / b.toRat| ≤ |a.toRat / b.toRat| / 2 ^ 53 := by
  have hpos : 0 < b.mant.natAbs := Int.natAbs_pos.2 hb
  have h := ofScaled_error (b.mant.sign * a.mant) b.mant.natAbs (a.exp - b.exp) hpos
  obtain ⟨hs, hbq⟩ := sign_cast b.mant hb
  have hnat : (b.mant.natAbs : ℚ) ≠ 0 := by exact_mod_cast hpos.ne'
  have hv : ((b.mant.sign * a.mant : Int) : ℚ) / (b.mant.natAbs : ℚ) * (2 : ℚ) ^ (a.exp - b.exp)
      = a.toRat / b.toRat := by
    unfold F64.toRat
    rw [zpow_sub₀ (by norm_num), hbq]
    have h2a : (2 : ℚ) ^ a.exp ≠ 0 := by positivity
    have h2b : (2 : ℚ) ^ b.exp ≠ 0 := by positivity
    push_cast
    rcases hs with h1 | h1 <;> rw [h1] <;> field_simp
  unfold F64.div
  rwa [hv] at h

theorem mul_error (a b : F64) :
    |(F64.mul a b).toRat - a.toRat * b.toRat| ≤ |a.toRat * b.toRat| / 2 ^ 53 := by
  have h := ofScaled_error (a.mant * b.mant) 1 (a.exp + b.exp) Nat.one_pos
  have hv : ((a.mant * b.mant : Int) : ℚ) / ((1 : Nat) : ℚ) * (2 : ℚ) ^ (a.exp + b.exp)
      = a.toRat * b.toRat := by
    unfold F64.toRat
    rw [zpow_add₀ (by norm_num)]
    push_cast
    ring
  unfold F64.mul
  rwa [hv] at h

theorem ofInt64_error (x : Int64) :
    |(F64.ofInt64 x).toRat - (x.val : ℚ)| ≤ |(x.val : ℚ)| / 2 ^ 53 := by
  have h := roundRat_error_all x.val 1 Nat.one_pos
  simpa [F64.ofInt64] using h

theorem toRat_hundred : (F64.ofInt 100).toRat = 100 := by
  have := roundRat_int_exact 100 (by norm_num)
  simpa [F64.ofInt] using this

/-- `math.Round` returns an integer at distance at most `1/2`. -/
theorem round_spec (a : F64) (ha : a.mant.natAbs < 2 ^ 53) :
    ∃ k : Int, (F64.round a).toRat = k ∧ |(k : ℚ) - a.toRat| ≤ 1 / 2 := by
  unfold F64.round
  split
  · rename_i h
    obtain ⟨e, he⟩ := Int.eq_ofNat_of_zero_le h
    refine ⟨a.mant * 2 ^ e, ?_, ?_⟩
    · simp [F64.toRat, he]
    · simp [F64.toRat, he]
  · rename_i h
    obtain ⟨s, hs⟩ := Int.eq_ofNat_of_zero_le (show 0 ≤ -a.exp by omega)
    have hs1 : 1 ≤ s := by omega
    simp only []
    rw [hs, Int.toNat_ofNat]
    set q := (a.mant.natAbs + 2 ^ (s - 1)) / 2 ^ s with hq
    have h2s : 2 ^ s = 2 * 2 ^ (s - 1) := by
      rw [← pow_succ']; congr 1; omega
    have hpos : 0 < 2 ^ (s - 1) := by positivity
    have hdm := Nat.div_add_mod (a.mant.natAbs + 2 ^ (s - 1)) (2 ^ s)
    have hml := Nat.mod_lt (a.mant.natAbs + 2 ^ (s - 1)) (show 0 < 2 ^ s by positivity)
    rw [← hq] at hdm
    set r := (a.mant.natAbs + 2 ^ (s - 1)) % 2 ^ s
    set A := a.mant.natAbs with hA
    set p := 2 ^ (s - 1) with hp
    rw [h2s] at hdm hml
    by_cases hm : a.mant = 0
    · have hA0 : A = 0 := by rw [hA, hm]; rfl
      refine ⟨0, ?_, ?_⟩
      · rw [hm]; simp [roundRat_zero, toRat_zero]
      · simp [F64.toRat, hm]
    obtain ⟨hsg, hmq⟩ := sign_cast a.mant hm
    have hqA : q ≤ A := by
      by_cases hq0 : q = 0
      · rw [hq0]; exact Nat.zero_le _
      · have h1 : 1 ≤ q := Nat.pos_of_ne_zero hq0
        have h3 : 2 * p ≤ 2 * p * q := Nat.le_mul_of_pos_right _ h1
        have h4 : p ≤ A := by omega
        have h5 : p * q ≤ A := by nlinarith
        have h6 : q ≤ p * q := Nat.le_mul_of_pos_left _ hpos
        omega
    have hsn : a.mant.sign.natAbs = 1 := by
      rcases lt_or_gt_of_ne hm with hlt | hgt
      · rw [Int.sign_eq_neg_one_of_neg hlt]; rfl
      · rw [Int.sign_eq_one_of_pos hgt]; rfl
    refine ⟨a.mant.sign * (q : Int), ?_, ?_⟩
    · apply roundRat_int_exact
      rw [Int.natAbs_mul, hsn, Int.natAbs_ofNat, one_mul]
      omega
    · have hval : a.toRat = (a.mant.sign : ℚ) * ((A : ℚ) / (2 * (p : ℚ))) := by
        unfold F64.toRat
        have he : a.exp = -(s : Int) := by omega
        rw [he, zpow_neg, zpow_natCast, hmq]
        have : ((2 : ℚ) ^ s) = 2 * (p : ℚ) := by
          rw [hp]; push_cast; rw [← pow_succ']; congr 1; omega
        rw [this]; field_simp
      have hpq : (0 : ℚ) < (p : ℚ) := by exact_mod_cast hpos
      have hdmq : (2 : ℚ) * p * q + r = A + p := by exact_mod_cast hdm
      have hmlq : (r : ℚ) < 2 * p := by exact_mod_cast hml
      have hr0 : (0 : ℚ) ≤ (r : ℚ) := by positivity
      have hrew : ((a.mant.sign * (q : Int) : Int) : ℚ) - a.toRat
          = (a.mant.sign : ℚ) * ((q : ℚ) - (A : ℚ) / (2 * (p : ℚ))) := by
        rw [hval]; push_cast; ring
      rw [hrew, abs_mul]
      have h1 : |(a.mant.sign : ℚ)| = 1 := by rcases hsg with h | h <;> rw [h] <;> simp
      rw [h1, one_mul, abs_le]
      have hAq : (A : ℚ) / (2 * (p : ℚ)) = (q : ℚ) + ((r : ℚ) - p) / (2 * p) := by
        field_simp
        linarith
      rw [hAq]
      have hb1 : ((r : ℚ) - p) / (2 * p) < 1 / 2 := by
        rw [div_lt_div_iff₀ (by positivity) (by norm_num)]; linarith
      have hb2 : -(1 / 2 : ℚ) ≤ ((r : ℚ) - p) / (2 * p) := by
        rw [neg_le_iff_add_nonneg, ← sub_nonneg]
        have : ((r : ℚ) - p) / (2 * p) + 1 / 2 - 0 = (r : ℚ) / (2 * p) := by
          field_simp; ring
        rw [this]; positivity
      constructor <;> linarith

theorem rel_trans {x y z e1 e2 : ℚ} (h1 : |x - y| ≤ e1 * |y|) (h2 : |z - x| ≤ e2 * |x|)
    (he2 : 0 ≤ e2) : |z - y| ≤ (e1 + e2 + e1 * e2) * |y| := by
  have hx : |x| ≤ |y| + |x - y| := by
    have := abs_add (x - y) y
    simp only [sub_add_cancel] at this
    linarith
  have hz : |z - y| ≤ |z - x| + |x - y| := by
    have := abs_add (z - x) (x - y)
    simp only [sub_add_sub_cancel] at this
    exact this
  have h3 : e2 * |x| ≤ e2 * (|y| + e1 * |y|) := by
    apply mul_le_mul_of_nonneg_left _ he2
    linarith
  nlinarith

theorem rel_mul_const {x y e : ℚ} (c : ℚ) (h : |x - y| ≤ e * |y|) :
    |x * c - y * c| ≤ e * |y * c| := by
  rw [← sub_mul, abs_mul, abs_mul, ← mul_assoc]
  exact mul_le_mul_of_nonneg_right h (abs_nonneg c)

theorem rel_div {a a0 b b0 u : ℚ} (ha : |a - a0| ≤ u * |a0|) (hb : |b - b0| ≤ u * |b0|)
    (hb0 : b0 ≠ 0) (hu0 : 0 ≤ u) (hu1 : u < 1) :
    b ≠ 0 ∧ |a / b - a0 / b0| ≤ (2 * u / (1 - u)) * |a0 / b0| := by
  have hb0pos : 0 < |b0| := abs_pos.2 hb0
  have hbl : (1 - u) * |b0| ≤ |b| := by
    have := abs_sub_abs_le_abs_sub b0 b
    rw [abs_sub_comm] at this
    linarith
  have hbpos : 0 < |b| := lt_of_lt_of_le (mul_pos (by linarith) hb0pos) hbl
  have hbne : b ≠ 0 := abs_pos.1 hbpos
  refine ⟨hbne, ?_⟩
  have hdiff : a / b - a0 / b0 = ((a - a0) * b0 - a0 * (b - b0)) / (b * b0) := by
    field_simp; ring
  have hnum : |(a - a0) * b0 - a0 * (b - b0)| ≤ 2 * u * (|a0| * |b0|) := by
    have h1 := abs_sub ((a - a0) * b0) (a0 * (b - b0))
    rw [abs_mul, abs_mul] at h1
    have h2 : |a - a0| * |b0| ≤ u * |a0| * |b0| := mul_le_mul_of_nonneg_right ha hb0pos.le
    have h3 : |a0| * |b - b0| ≤ |a0| * (u * |b0|) := mul_le_mul_of_nonneg_left hb (abs_nonneg _)
    nlinarith
  rw [hdiff, abs_div, abs_mul, abs_div, div_le_iff₀ (mul_pos hbpos hb0pos)]
  have h1u : 0 < 1 - u := by linarith
  have key : 2 * u * (|a0| * |b0|) ≤ 2 * u / (1 - u) * (|a0| / |b0|) * (|b| * |b0|) := by
    have e1 : 2 * u / (1 - u) * (|a0| / |b0|) * (|b| * |b0|)
        = 2 * u * |a0| * (|b| / (1 - u)) := by
      field_simp; ring
    rw [e1]
    have e2 : |b0| ≤ |b| / (1 - u) := by
      rw [le_div_iff₀ h1u]; linarith
    have e3 : 0 ≤ 2 * u * |a0| := by positivity
    nlinarith [mul_le_mul_of_nonneg_left e2 e3]
  linarith

theorem mul_mant_lt (a b : F64) : (F64.mul a b).mant.natAbs < 2 ^ 53 :=
  ofScaled_mant_lt _ _ _

/-- The `float64` product that `GetProbability` rounds is within relative error
`2^-50` of the exact quotient `weight * 10000 / totalWeight`. -/
theorem product_error (w t : Int64) (ht : t.val ≠ 0) :
    (F64.mul (F64.mul (F64.div (F64.ofInt64 w) (F64.ofInt64 t)) (F64.ofInt 100))
        (F64.ofInt 100)).mant.natAbs < 2 ^ 53 ∧
    |(F64.mul (F64.mul (F64.div (F64.ofInt64 w) (F64.ofInt64 t)) (F64.ofInt 100))
        (F64.ofInt 100)).toRat - (w.val : ℚ) * 10000 / (t.val : ℚ)|
      ≤ |(w.val : ℚ) * 10000 / (t.val : ℚ)| / 2 ^ 50 := by
  refine ⟨mul_mant_lt _ _, ?_⟩
  have htq : (t.val : ℚ) ≠ 0 := by exact_mod_cast ht
  generalize hu : (1 : ℚ) / 2 ^ 53 = u
  have hu0 : 0 ≤ u := by rw [← hu]; positivity
  have hu1 : u < 1 := by rw [← hu]; norm_num
  set W := F64.ofInt64 w
  set T := F64.ofInt64 t
  have hw : |W.toRat - (w.val : ℚ)| ≤ u * |(w.val : ℚ)| := by
    have := ofInt64_error w
    rw [← hu]; linarith
  have hT : |T.toRat - (t.val : ℚ)| ≤ u * |(t.val : ℚ)| := by
    have := ofInt64_error t
    rw [← hu]; linarith
  obtain ⟨hTne, hq⟩ := rel_div hw hT htq hu0 hu1
  have hmant : T.mant ≠ 0 := fun h => hTne ((toRat_eq_zero_iff _).2 h)
  set X1 := F64.div W T
  have h1 : |X1.toRat - W.toRat / T.toRat| ≤ u * |W.toRat / T.toRat| := by
    have := div_error W T hmant
    rw [← hu]; linarith
  have s1 := rel_trans hq h1 hu0
  set X2 := F64.mul X1 (F64.ofInt 100)
  have h2 : |X2.toRat - X1.toRat * 100| ≤ u * |X1.toRat * 100| := by
    have := mul_error X1 (F64.ofInt 100)
    rw [toRat_hundred] at this
    rw [← hu]; linarith
  have s2 := rel_trans (rel_mul_const 100 s1) h2 hu0
  set X3 := F64.mul X2 (F64.ofInt 100)
  have h3 : |X3.toRat - X2.toRat * 100| ≤ u * |X2.toRat * 100| := by
    have := mul_error X2 (F64.ofInt 100)
    rw [toRat_hundred] at this
    rw [← hu]; linarith
  have s3 := rel_trans (rel_mul_const 100 s2) h3 hu0
  have hval : (w.val : ℚ) / (t.val : ℚ) * 100 * 100 = (w.val : ℚ) * 10000 / (t.val : ℚ) := by
    field_simp; ring
  rw [hval] at s3
  refine le_trans s3 ?_
  have hfin : |(w.val : ℚ) * 10000 / (t.val : ℚ)| / 2 ^ 50
      = (1 / 2 ^ 50) * |(w.val : ℚ) * 10000 / (t.val : ℚ)| := by ring
  rw [hfin]
  apply mul_le_mul_of_nonneg_right _ (abs_nonneg _)
  rw [← hu]
  norm_num

/-! ## The claims -/

/-- Claim C1, as the code has it: after every finite sequence of `Add` and
`Delete` calls on a table fresh from `New` (rejected calls included; every
prefix of a sequence is a sequence, so this holds after each call),
`totalWeight` equals the sum of the stored weights reduced modulo `2^64` into
the `int64` range, and equals that sum itself whenever the sum fits in an
`int64`. -/
theorem totalWeight_eq_wrapped_sum (ops : List (Op V)) :
    (runOps New ops).totalWeight.val = wrapInt64 (sumWeights (runOps New ops).items) ∧
    (-9223372036854775808 ≤ sumWeights (runOps New ops).items →
      sumWeights (runOps New ops).items ≤ 9223372036854775807 →
      (runOps New ops).totalWeight.val = sumWeights (runOps New ops).items) := by
  have h : SumInv (runOps New ops) := runOps_sumInv ops New New_sumInv
  refine ⟨h, fun h1 h2 => ?_⟩
  rw [h]
  exact wrapInt64_of_range h1 h2

/-- Claim C1 at the table of `TestGet`: the sum 30 fits, and `totalWeight` is 30. -/
theorem totalWeight_eq_wrapped_sum_witness :
    exTwo.totalWeight.val = sumWeights exTwo.items ∧ exTwo.totalWeight.val = 30 :=
  ⟨(totalWeight_eq_wrapped_sum
      [Op.add "item1" (some "data1") (Int64.ofInt 10),
        Op.add "item2" (some "data2") (Int64.ofInt 20)]).2 (by decide) (by decide),
    by decide⟩

/-- Claim C1 fails as stated: after `Add("a", 0, 2^63-1)` and `Add("b", 0, 2^63-1)`
on a fresh table the stored weights sum to `2^64 - 2` while `totalWeight` is `-2`. -/
theorem totalWeight_ne_sum_on_overflow :
    (runOps New exOverflowOps).totalWeight.val = -2 ∧
    sumWeights (runOps New exOverflowOps).items = 18446744073709551614 ∧
    (runOps New exOverflowOps).totalWeight.val ≠ sumWeights (runOps New exOverflowOps).items := by
  decide

/-- Claim C2: in a table whose `totalWeight` is the sum of the stored weights,
all of them positive, and for every iteration order of the entries, the number
of integers `r` in `[1, totalWeight]` for which `Get`, having drawn `r - 1`
(so that `randomNumber` is `r`), returns key `k` is the stored weight of `k`. -/
theorem Get_selects_proportionally (wt : WeightTable V)
    (hsum : wt.totalWeight.val = sumWeights wt.items)
    (hpos : ∀ e ∈ wt.items.entries, 0 < e.2.weight.val)
    (order : List (Sigma fun _ : String => Item V)) (hord : IsOrder order wt.items)
    (k : String) (itm : Item V) (hk : wt.items.lookup k = some itm) :
    (((Finset.Icc 1 wt.totalWeight.val).filter
      fun r => (Get wt (r - 1) order).1 = k).card : Int) = itm.weight.val := by
  have hposl : ∀ e ∈ order, 0 < e.2.weight.val := fun e he =>
    hpos e (by rw [← hord]; exact he)
  have hnd := hord.nodupKeys
  have hmem := (hord.mem_iff k itm).2 hk
  have hls := hord.listSum_eq
  have hw := hposl _ hmem
  have hb := before_nonneg k order hposl
  have hle := before_add_le k itm order hposl hnd hmem
  have hhi := wt.totalWeight.hi
  have hset : ((Finset.Icc 1 wt.totalWeight.val).filter
      fun r => (Get wt (r - 1) order).1 = k)
      = Finset.Ioc (before k order) (before k order + itm.weight.val) := by
    ext r
    simp only [Finset.mem_filter, Finset.mem_Icc, Finset.mem_Ioc]
    constructor
    · rintro ⟨⟨h1, h2⟩, h3⟩
      have hv := randomNumber_val r h1 (by omega)
      unfold Get at h3
      rw [if_neg (by omega)] at h3
      have := (scan_key_iff order hposl hnd k itm hmem _ (by omega) (by omega)).1 h3
      omega
    · rintro ⟨h1, h2⟩
      have hv := randomNumber_val r (by omega) (by omega)
      refine ⟨⟨by omega, by omega⟩, ?_⟩
      unfold Get
      rw [if_neg (by omega)]
      exact (scan_key_iff order hposl hnd k itm hmem _ (by omega) (by omega)).2 (by omega)
  rw [hset, Int.card_Ioc]
  simp only [] at hw
  omega

/-- Claim C2 at the table of `TestGet`, visited as `item2`, `item1`: of the 30
values of `r`, 20 select `item2`. -/
theorem Get_selects_proportionally_witness :
    exTwo.totalWeight.val = 30 ∧
    (((Finset.Icc 1 exTwo.totalWeight.val).filter
      fun r => (Get exTwo (r - 1) exTwoOrder).1 = "item2").card : Int) = 20 :=
  ⟨by decide,
    Get_selects_proportionally exTwo (by decide) (by decide) exTwoOrder (by decide)
      "item2" ⟨Int64.ofInt 20, some "data2"⟩ (by decide)⟩

/-- Claim C3: `Add(key, value, weight)` returns `false` exactly when
`weight <= 0`, or `key` is empty, or `key` is not in the table and `value` is
`nil`; and when it returns `false` the table is the one it was. -/
theorem Add_false_iff_and_unchanged (wt : WeightTable V) (key : String) (item : Option V)
    (weight : Int64) :
    ((Add wt key item weight).2 = false ↔
      (weight.val ≤ 0 ∨ key = "" ∨ (wt.items.lookup key = none ∧ item = none))) ∧
    ((Add wt key item weight).2 = false → (Add wt key item weight).1 = wt) := by
  by_cases h : weight.val ≤ 0 ∨ key = ""
  · rw [Add_of_reject wt key item weight h]
    refine ⟨?_, fun _ => rfl⟩
    simp only [true_iff]
    rcases h with h | h
    · exact Or.inl h
    · exact Or.inr (Or.inl h)
  · rw [not_or] at h
    have hw : 0 < weight.val := by omega
    cases hl : wt.items.lookup key with
    | none =>
      cases item with
      | none => rw [Add_of_new_nil wt key weight hl]; simp
      | some v => rw [Add_of_new wt key v weight hw h.2 hl]; simp [h.1, h.2]
    | some itm => rw [Add_of_existing wt key item weight itm hw h.2 hl]; simp [h.1, h.2]

/-- Claim C4, as the code has it: for a non-empty key not in the table, a
non-nil value and a weight `> 0`, `Add` returns `true`, the table then maps
the key to `Item{weight, value}`, every other key keeps its entry, and
`totalWeight` becomes `totalWeight + weight` reduced modulo `2^64` into the
`int64` range, which is `totalWeight + weight` whenever that is at most
`2^63 - 1`. -/
theorem Add_new_key (wt : WeightTable V) (key : String) (v : V) (weight : Int64)
    (hkey : key ≠ "") (hnew : wt.items.lookup key = none) (hw : 0 < weight.val) :
    (Add wt key (some v) weight).2 = true ∧
    (Add wt key (some v) weight).1.items.lookup key = some { weight := weight, item := some v } ∧
    (Add wt key (some v) weight).1.totalWeight.val
      = wrapInt64 (wt.totalWeight.val + weight.val) ∧
    (wt.totalWeight.val + weight.val ≤ 9223372036854775807 →
      (Add wt key (some v) weight).1.totalWeight.val = wt.totalWeight.val + weight.val) ∧
    ∀ k, k ≠ key → (Add wt key (some v) weight).1.items.lookup k = wt.items.lookup k := by
  have hlo := wt.totalWeight.lo
  rw [Add_of_new wt key v weight hw hkey hnew]
  refine ⟨rfl, by simp, rfl, ?_, ?_⟩
  · intro h
    simp only [Int64.add, Int64.ofInt]
    exact wrapInt64_of_range (by omega) h
  · intro k hk
    simp [Finmap.lookup_insert_of_ne _ hk]

/-- Claim C4 at the first call of `TestAdd`: `Add("item1", "data1", 10)` on a
fresh table returns `true` and leaves `totalWeight` at `0 + 10`. -/
theorem Add_new_key_witness :
    (Add (New : WeightTable String) "item1" (some "data1") (Int64.ofInt 10)).2 = true ∧
    (Add (New : WeightTable String) "item1" (some "data1") (Int64.ofInt 10)).1.totalWeight.val
      = (New : WeightTable String).totalWeight.val + (Int64.ofInt 10).val :=
  ⟨(Add_new_key New "item1" "data1" (Int64.ofInt 10) (by decide) (by decide) (by decide)).1,
    (Add_new_key New "item1" "data1" (Int64.ofInt 10) (by decide) (by decide)
      (by decide)).2.2.2.1 (by decide)⟩

/-- Claim C4 fails as stated: on the table holding `a` with weight `2^63 - 1`,
`Add("b", 0, 1)` meets every condition of the claim and leaves `totalWeight`
at `-2^63`, not at `2^63 - 1 + 1`. -/
theorem Add_new_key_overflow :
    "b" ≠ "" ∧ exMax.items.lookup "b" = none ∧ 0 < (Int64.ofInt 1).val ∧
    exMax.totalWeight.val = 9223372036854775807 ∧
    (Add exMax "b" (some 0) (Int64.ofInt 1)).1.totalWeight.val = -9223372036854775808 ∧
    (Add exMax "b" (some 0) (Int64.ofInt 1)).1.totalWeight.val
      ≠ exMax.totalWeight.val + (Int64.ofInt 1).val := by
  decide

/-- Claim C5, as the code has it: for a non-empty key already in the table and
a weight `> 0`, `Add` returns `true`; the entry's weight and `totalWeight`
each become the old value plus `weight` reduced modulo `2^64` into the `int64`
range, which is the old value plus `weight` whenever that is at most
`2^63 - 1`; the stored value becomes `value` when `value` is non-nil and stays
when it is `nil`; every other key keeps its entry; and `Add(k, nil, w1)`
followed by `Add(k, v, w2)` leaves the weight raised by `w1 + w2` (modulo
`2^64`) and the value `v`. -/
theorem Add_existing_key (wt : WeightTable V) (key : String) (item : Option V) (weight : Int64)
    (itm : Item V) (hkey : key ≠ "") (hold : wt.items.lookup key = some itm)
    (hw : 0 < weight.val) :
    (Add wt key item weight).2 = true ∧
    (Add wt key item weight).1.items.lookup key
      = some { weight := itm.weight.add weight,
               item := if item.isSome then item else itm.item } ∧
    (itm.weight.add weight).val = wrapInt64 (itm.weight.val + weight.val) ∧
    (itm.weight.val + weight.val ≤ 9223372036854775807 →
      (itm.weight.add weight).val = itm.weight.val + weight.val) ∧
    (Add wt key item weight).1.totalWeight.val
      = wrapInt64 (wt.totalWeight.val + weight.val) ∧
    (wt.totalWeight.val + weight.val ≤ 9223372036854775807 →
      (Add wt key item weight).1.totalWeight.val = wt.totalWeight.val + weight.val) ∧
    (∀ k, k ≠ key → (Add wt key item weight).1.items.lookup k = wt.items.lookup k) ∧
    (∀ (w1 w2 : Int64) (v : V), 0 < w1.val → 0 < w2.val →
      ∃ w : Int64,
        (Add (Add wt key none w1).1 key (some v) w2).1.items.lookup key
          = some { weight := w, item := some v } ∧
        w.val = wrapInt64 (itm.weight.val + (w1.val + w2.val)) ∧
        (itm.weight.val + (w1.val + w2.val) ≤ 9223372036854775807 →
          w.val = itm.weight.val + (w1.val + w2.val))) := by
  have hlo := wt.totalWeight.lo
  have hilo := itm.weight.lo
  rw [Add_of_existing wt key item weight itm hw hkey hold]
  refine ⟨rfl, Finmap.lookup_insert _, rfl, ?_, rfl, ?_, ?_, ?_⟩
  · intro h
    simp only [Int64.add, Int64.ofInt]
    exact wrapInt64_of_range (by omega) h
  · intro h
    simp only [Int64.add, Int64.ofInt]
    exact wrapInt64_of_range (by omega) h
  · intro k hk
    simp [Finmap.lookup_insert_of_ne _ hk]
  · intro w1 w2 v h1 h2
    rw [Add_of_existing wt key none w1 itm h1 hkey hold]
    rw [Add_of_existing _ key (some v) w2 _ h2 hkey (Finmap.lookup_insert _)]
    refine ⟨_, Finmap.lookup_insert _, ?_, ?_⟩
    · simp only [Int64.add, Int64.ofInt]
      unfold wrapInt64; omega
    · intro h
      simp only [Int64.add, Int64.ofInt]
      unfold wrapInt64; omega

/-- Claim C5 at the second call of `TestAdd`: `Add("item1", nil, 5)` on the
table holding `item1` with weight 10 returns `true`, keeps `"data1"` and
leaves weight and `totalWeight` at 15. -/
theorem Add_existing_key_witness :
    (Add exItem1 "item1" none (Int64.ofInt 5)).2 = true ∧
    (Add exItem1 "item1" none (Int64.ofInt 5)).1.items.lookup "item1"
      = some { weight := Int64.ofInt 15, item := some "data1" } ∧
    (Add exItem1 "item1" none (Int64.ofInt 5)).1.totalWeight.val = 15 :=
  ⟨(Add_existing_key exItem1 "item1" none (Int64.ofInt 5) ⟨Int64.ofInt 10, some "data1"⟩
      (by decide) (by decide) (by decide)).1,
    (Add_existing_key exItem1 "item1" none (Int64.ofInt 5) ⟨Int64.ofInt 10, some "data1"⟩
      (by decide) (by decide) (by decide)).2.1,
    (Add_existing_key exItem1 "item1" none (Int64.ofInt 5) ⟨Int64.ofInt 10, some "data1"⟩
      (by decide) (by decide) (by decide)).2.2.2.2.2.1 (by decide)⟩

/-- Claim C5 fails as stated: on the table holding `a` with weight `2^63 - 1`,
`Add("a", nil, 1)` leaves the weight of `a` and `totalWeight` at `-2^63`, not
at `2^63 - 1 + 1`. -/
theorem Add_existing_key_overflow :
    exMax.items.lookup "a" = some { weight := maxInt64, item := some 0 } ∧
    maxInt64.val = 9223372036854775807 ∧ 0 < (Int64.ofInt 1).val ∧
    (Add exMax "a" none (Int64.ofInt 1)).1.items.lookup "a"
      = some { weight := Int64.ofInt (-9223372036854775808), item := some 0 } ∧
    (Int64.ofInt (-9223372036854775808)).val ≠ maxInt64.val + (Int64.ofInt 1).val ∧
    (Add exMax "a" none (Int64.ofInt 1)).1.totalWeight.val
      ≠ exMax.totalWeight.val + (Int64.ofInt 1).val := by
  decide

/-- Claim C6, as the code has it: when `key` is in the table, `Delete(key)`
removes that entry, keeps every other entry, and `totalWeight` becomes
`totalWeight` minus the entry's weight reduced modulo `2^64` into the `int64`
range, which is `totalWeight` minus the weight whenever that difference is an
`int64`; when `key` is absent the table is unchanged; and a second
`Delete(key)` changes nothing. -/
theorem Delete_spec (wt : WeightTable V) (key : String) :
    (∀ itm, wt.items.lookup key = some itm →
      (Delete wt key).items.lookup key = none ∧
      (∀ k, k ≠ key → (Delete wt key).items.lookup k = wt.items.lookup k) ∧
      (Delete wt key).totalWeight.val = wrapInt64 (wt.totalWeight.val - itm.weight.val) ∧
      (-9223372036854775808 ≤ wt.totalWeight.val - itm.weight.val →
        wt.totalWeight.val - itm.weight.val ≤ 9223372036854775807 →
        (Delete wt key).totalWeight.val = wt.totalWeight.val - itm.weight.val)) ∧
    (wt.items.lookup key = none → Delete wt key = wt) ∧
    Delete (Delete wt key) key = Delete wt key := by
  refine ⟨?_, Delete_of_absent wt key, ?_⟩
  · intro itm h
    rw [Delete_of_present wt key itm h]
    refine ⟨Finmap.lookup_erase _ _, fun k hk => Finmap.lookup_erase_ne hk, rfl, ?_⟩
    intro h1 h2
    simp only [Int64.sub, Int64.ofInt]
    exact wrapInt64_of_range h1 h2
  · apply Delete_of_absent
    cases h : wt.items.lookup key with
    | none => rw [Delete_of_absent wt key h]; exact h
    | some itm => rw [Delete_of_present wt key itm h]; exact Finmap.lookup_erase _ _

/-- Claim C6 at the table of `TestDelete`: `Delete("item1")` on the table
holding `item1` with weight 10 removes it and leaves `totalWeight` at `10 - 10`. -/
theorem Delete_spec_witness :
    (Delete exItem1 "item1").items.lookup "item1" = none ∧
    (Delete exItem1 "item1").totalWeight.val
      = exItem1.totalWeight.val - (Int64.ofInt 10).val :=
  ⟨((Delete_spec exItem1 "item1").1 ⟨Int64.ofInt 10, some "data1"⟩ (by decide)).1,
    ((Delete_spec exItem1 "item1").1 ⟨Int64.ofInt 10, some "data1"⟩ (by decide)).2.2.2
      (by decide) (by decide)⟩

/-- Claim C6 fails as stated: on the table reached by `Add("a", 0, 2^63-1)` and
`Add("b", 0, 2^63-1)`, whose `totalWeight` is `-2`, `Delete("a")` leaves
`totalWeight` at `2^63 - 1`, not at `-2 - (2^63 - 1)`. -/
theorem Delete_underflow :
    exOverflow.items.lookup "a" = some { weight := maxInt64, item := some 0 } ∧
    exOverflow.totalWeight.val = -2 ∧
    (Delete exOverflow "a").totalWeight.val = 9223372036854775807 ∧
    (Delete exOverflow "a").totalWeight.val ≠ exOverflow.totalWeight.val - maxInt64.val := by
  decide

/-- Claim C7 at the table of `TestClean`: after `Add("item1", "data1", 10)` on a
fresh table, `clean` empties the map and leaves `totalWeight` at 10. -/
theorem clean_leaves_totalWeight :
    (clean exItem1).items = ∅ ∧ exItem1.totalWeight.val = 10 ∧
    (clean exItem1).totalWeight.val = 10 ∧ (clean exItem1).totalWeight.val ≠ 0 := by
  decide

/-- Claim C8 at the table of `TestClean`: after `clean`, `Add("a", "x", 10)`
followed by `GetProbability("a")` gives `50`, where the same two calls on a
table fresh from `New` give `100`. -/
theorem clean_differs_from_New :
    (Add (clean exItem1) "a" (some "x") (Int64.ofInt 10)).2 = true ∧
    (Add (New : WeightTable String) "a" (some "x") (Int64.ofInt 10)).2 = true ∧
    GetProbability (Add (clean exItem1) "a" (some "x") (Int64.ofInt 10)).1 "a"
      = F64.ofInt 50 ∧
    GetProbability (Add (New : WeightTable String) "a" (some "x") (Int64.ofInt 10)).1 "a"
      = F64.ofInt 100 ∧
    GetProbability (Add (clean exItem1) "a" (some "x") (Int64.ofInt 10)).1 "a"
      ≠ GetProbability (Add (New : WeightTable String) "a" (some "x") (Int64.ofInt 10)).1 "a" := by
  decide

/-- Claim C9: `GetProbability(key)` returns `0.0` when `totalWeight == 0`, and
returns `0.0` when `key` is not in the table. -/
theorem GetProbability_zero (wt : WeightTable V) (key : String)
    (h : wt.totalWeight.val = 0 ∨ wt.items.lookup key = none) :
    GetProbability wt key = F64.zero := by
  unfold GetProbability
  split
  · rfl
  · rcases h with h | h
    · contradiction
    · rw [h]

/-- Claim C9 at the two cases of `TestGetProbability`: `item1` on a fresh table,
and the absent `item4` on the table of weights 10, 30, 60. -/
theorem GetProbability_zero_witness :
    GetProbability (New : WeightTable String) "item1" = F64.zero ∧
    exPercent.totalWeight.val = 100 ∧
    GetProbability exPercent "item4" = F64.zero :=
  ⟨GetProbability_zero New "item1" (Or.inl (by decide)), by decide,
    GetProbability_zero exPercent "item4" (Or.inr (by decide))⟩

/-- Claim C10, as the code has it: with `totalWeight != 0` and `key` in the
table, `GetProbability(key)` is `math.Round(x) / 100`, where `x` is the
`float64` product `(float64(weight) / float64(totalWeight) * 100) * 100`, each
operation rounded to the nearest `float64`.  `math.Round(x)` is an integer `n`
with `|n - q| ≤ 1/2 + |q| / 2^50` for the exact quotient
`q = weight * 10000 / totalWeight`, and the result is `n / 100` up to the
relative error `2^-53` of the last division.  For the weights 1, 1000, 500 the
result is the `float64` `0.07`, `66.62`, `33.31`, and for the weights 10, 30,
60 it is `10`, `30`, `60`, as rounding `q` half away from zero gives. -/
theorem GetProbability_float (wt : WeightTable V) (key : String) (itm : Item V)
    (hT : wt.totalWeight.val ≠ 0) (hk : wt.items.lookup key = some itm) :
    GetProbability wt key
      = F64.div (F64.round (F64.mul (F64.mul
          (F64.div (F64.ofInt64 itm.weight) (F64.ofInt64 wt.totalWeight))
          (F64.ofInt 100)) (F64.ofInt 100))) (F64.ofInt 100) ∧
    (∃ n : Int,
      (F64.round (F64.mul (F64.mul
          (F64.div (F64.ofInt64 itm.weight) (F64.ofInt64 wt.totalWeight))
          (F64.ofInt 100)) (F64.ofInt 100))).toRat = n ∧
      |(n : ℚ) - (itm.weight.val : ℚ) * 10000 / (wt.totalWeight.val : ℚ)|
        ≤ 1 / 2 + |(itm.weight.val : ℚ) * 10000 / (wt.totalWeight.val : ℚ)| / 2 ^ 50 ∧
      |(GetProbability wt key).toRat - (n : ℚ) / 100| ≤ |(n : ℚ) / 100| / 2 ^ 53) ∧
    (GetProbability exRounding "item1" = F64.roundRat 7 100 ∧
      GetProbability exRounding "item2" = F64.roundRat 6662 100 ∧
      GetProbability exRounding "item3" = F64.roundRat 3331 100 ∧
      GetProbability exRounding "item1" = specProbability 1 1501 ∧
      GetProbability exRounding "item2" = specProbability 1000 1501 ∧
      GetProbability exRounding "item3" = specProbability 500 1501) ∧
    (GetProbability exPercent "item1" = F64.ofInt 10 ∧
      GetProbability exPercent "item2" = F64.ofInt 30 ∧
      GetProbability exPercent "item3" = F64.ofInt 60 ∧
      GetProbability exPercent "item1" = specProbability 10 100 ∧
      GetProbability exPercent "item2" = specProbability 30 100 ∧
      GetProbability exPercent "item3" = specProbability 60 100) := by
  have hval : GetProbability wt key
      = F64.div (F64.round (F64.mul (F64.mul
          (F64.div (F64.ofInt64 itm.weight) (F64.ofInt64 wt.totalWeight))
          (F64.ofInt 100)) (F64.ofInt 100))) (F64.ofInt 100) := by
    unfold GetProbability
    rw [if_neg hT, hk]
  refine ⟨hval, ?_, by decide, by decide⟩
  obtain ⟨hm, hx⟩ := product_error itm.weight wt.totalWeight hT
  obtain ⟨n, hn, hr⟩ := round_spec _ hm
  refine ⟨n, hn, ?_, ?_⟩
  · have h1 := abs_add ((n : ℚ) - (F64.mul (F64.mul
          (F64.div (F64.ofInt64 itm.weight) (F64.ofInt64 wt.totalWeight))
          (F64.ofInt 100)) (F64.ofInt 100)).toRat)
      ((F64.mul (F64.mul
          (F64.div (F64.ofInt64 itm.weight) (F64.ofInt64 wt.totalWeight))
          (F64.ofInt 100)) (F64.ofInt 100)).toRat
        - (itm.weight.val : ℚ) * 10000 / (wt.totalWeight.val : ℚ))
    simp only [sub_add_sub_cancel] at h1
    linarith
  · have h100 : (F64.ofInt 100).mant ≠ 0 := by
      intro h
      have := (toRat_eq_zero_iff (F64.ofInt 100)).2 h
      rw [toRat_hundred] at this
      norm_num at this
    have hd := div_error (F64.round (F64.mul (F64.mul
          (F64.div (F64.ofInt64 itm.weight) (F64.ofInt64 wt.totalWeight))
          (F64.ofInt 100)) (F64.ofInt 100))) (F64.ofInt 100) h100
    rw [toRat_hundred, hn, ← hval] at hd
    exact hd

/-- Claim C10 at the table of `TestGetProbability`: `GetProbability("item1")` is
the `float64` expression over the weights 10 and 100, whose value is `10`. -/
theorem GetProbability_float_witness :
    exPercent.totalWeight.val = 100 ∧
    GetProbability exPercent "item1"
      = F64.div (F64.round (F64.mul (F64.mul
          (F64.div (F64.ofInt64 (Int64.ofInt 10)) (F64.ofInt64 exPercent.totalWeight))
          (F64.ofInt 100)) (F64.ofInt 100))) (F64.ofInt 100) :=
  ⟨by decide,
    (GetProbability_float exPercent "item1" ⟨Int64.ofInt 10, some "data1"⟩
      (by decide) (by decide)).1⟩

/-- Claim C10 fails as stated: with weights 23 and 137 (total 160) the exact
quotient `23 * 10000 / 160` is `1437.5`, which rounds half away from zero to
`1438`, that is `14.38`; the `float64` product is just below `1437.5` and
`GetProbability("a")` is `14.37`. -/
theorem GetProbability_tie_rounds_down :
    exTie.totalWeight.val = 160 ∧
    exTie.items.lookup "a" = some { weight := Int64.ofInt 23, item := some "x" } ∧
    halfAwayRound (23 * 10000) 160 = 1438 ∧
    specProbability 23 160 = F64.roundRat 1438 100 ∧
    GetProbability exTie "a" = F64.roundRat 1437 100 ∧
    GetProbability exTie "a" ≠ specProbability 23 160 := by
  decide

/-! ### Facts for `GetAllProbabilities` and for reachable tables -/

theorem foldl_insert_lookup_of_not_mem (g : Item V → F64)
    (l : List (Sigma fun _ : String => Item V)) (acc : Finmap (fun _ : String => F64))
    (k : String) (hk : k ∉ l.keys) :
    (l.foldl (fun p e => p.insert e.1 (g e.2)) acc).lookup k = acc.lookup k := by
  induction l generalizing acc with
  | nil => rfl
  | cons e rest ih =>
    rw [List.keys_cons, List.mem_cons, not_or] at hk
    rw [List.foldl_cons, ih _ hk.2]
    exact Finmap.lookup_insert_of_ne _ hk.1

theorem foldl_insert_lookup_of_mem (g : Item V → F64)
    (l : List (Sigma fun _ : String => Item V)) (hnd : l.NodupKeys)
    (acc : Finmap (fun _ : String => F64)) (k : String) (itm : Item V)
    (hmem : (⟨k, itm⟩ : Sigma fun _ : String => Item V) ∈ l) :
    (l.foldl (fun p e => p.insert e.1 (g e.2)) acc).lookup k = some (g itm) := by
  induction l generalizing acc with
  | nil => simp at hmem
  | cons e rest ih =>
    rw [List.nodupKeys_cons] at hnd
    rw [List.foldl_cons]
    rcases List.mem_cons.1 hmem with h | h
    · subst h
      rw [foldl_insert_lookup_of_not_mem g rest _ k hnd.1]
      exact Finmap.lookup_insert _
    · exact ih hnd.2 _ h

theorem IsOrder.not_mem_keys {order : List (Sigma fun _ : String => Item V)}
    {m : Finmap (fun _ : String => Item V)} (h : IsOrder order m) (k : String)
    (hk : m.lookup k = none) : k ∉ order.keys := by
  rw [Finmap.lookup_eq_none, Finmap.mem_def, ← h, Multiset.coe_keys] at hk
  simpa using hk

theorem IsOrder.eq_nil {order : List (Sigma fun _ : String => Item V)}
    (h : IsOrder order (∅ : Finmap (fun _ : String => Item V))) : order = [] := by
  unfold IsOrder at h
  have : (order : Multiset (Sigma fun _ : String => Item V)) = 0 := h
  simpa using this

theorem scan_nil_or_mem (l : List (Sigma fun _ : String => Item V)) (r : Int64) :
    scan r l = ("", none) ∨ ∃ e ∈ l, scan r l = (e.1, e.2.item) := by
  induction l generalizing r with
  | nil => left; rfl
  | cons e rest ih =>
    obtain ⟨key, item⟩ := e
    simp only [scan]
    split
    · right; exact ⟨⟨key, item⟩, List.mem_cons_self _ _, rfl⟩
    · rcases ih (r.sub item.weight) with h | ⟨e, he, hs⟩
      · left; exact h
      · right; exact ⟨e, List.mem_cons_of_mem _ he, hs⟩

/-- The loop of `Get` returns an entry when the subtractions, taken modulo
`2^64`, bring a positive `randomNumber` to a value `<= 0`. -/
theorem scan_hits (l : List (Sigma fun _ : String => Item V)) (r : Int64)
    (h1 : 0 < r.val) (h2 : wrapInt64 (r.val - listSum l) ≤ 0) :
    ∃ e ∈ l, scan r l = (e.1, e.2.item) := by
  induction l generalizing r with
  | nil =>
    have := r.lo
    have := r.hi
    simp only [listSum, List.map_nil, List.sum_nil, wrapInt64] at h2
    omega
  | cons e rest ih =>
    obtain ⟨key, item⟩ := e
    rw [listSum_cons] at h2
    simp only [] at h2
    simp only [scan]
    split
    · exact ⟨⟨key, item⟩, List.mem_cons_self _ _, rfl⟩
    · rename_i hgt
      have hv : (r.sub item.weight).val = wrapInt64 (r.val - item.weight.val) := rfl
      have h3 : wrapInt64 ((r.sub item.weight).val - listSum rest) ≤ 0 := by
        rw [hv]
        unfold wrapInt64 at h2 ⊢
        omega
      obtain ⟨e, he, hs⟩ := ih (r.sub item.weight) (by omega) h3
      exact ⟨e, List.mem_cons_of_mem _ he, hs⟩

theorem Add_sound (wt : WeightTable V) (key : String) (item : Option V) (weight : Int64)
    (h : Sound wt) : Sound (Add wt key item weight).1 := by
  by_cases hr : weight.val ≤ 0 ∨ key = ""
  · rw [Add_of_reject wt key item weight hr]; exact h
  · rw [not_or] at hr
    have hw : 0 < weight.val := by omega
    cases hl : wt.items.lookup key with
    | none =>
      cases item with
      | none => rw [Add_of_new_nil wt key weight hl]; exact h
      | some v =>
        rw [Add_of_new wt key v weight hw hr.2 hl]
        intro k itm hk
        by_cases hkk : k = key
        · subst hkk
          simp only [Finmap.lookup_insert] at hk
          cases hk
          exact ⟨hr.2, by simp⟩
        · simp only [Finmap.lookup_insert_of_ne _ hkk] at hk
          exact h k itm hk
    | some old =>
      rw [Add_of_existing wt key item weight old hw hr.2 hl]
      intro k itm hk
      by_cases hkk : k = key
      · subst hkk
        simp only [Finmap.lookup_insert] at hk
        cases hk
        refine ⟨hr.2, ?_⟩
        cases item with
        | none => exact (h k old hl).2
        | some v => simp
      · simp only [Finmap.lookup_insert_of_ne _ hkk] at hk
        exact h k itm hk

theorem Delete_sound (wt : WeightTable V) (key : String) (h : Sound wt) :
    Sound (Delete wt key) := by
  cases hl : wt.items.lookup key with
  | none => rw [Delete_of_absent wt key hl]; exact h
  | some old =>
    rw [Delete_of_present wt key old hl]
    intro k itm hk
    by_cases hkk : k = key
    · subst hkk
      simp only [Finmap.lookup_erase] at hk
      cases hk
    · simp only [Finmap.lookup_erase_ne hkk] at hk
      exact h k itm hk

theorem New_sound : Sound (New : WeightTable V) := by
  intro k itm hk
  simp [New] at hk

theorem runOps_sound (ops : List (Op V)) (wt : WeightTable V) (h : Sound wt) :
    Sound (runOps wt ops) := by
  induction ops generalizing wt with
  | nil => exact h
  | cons op ops ih =>
    simp only [runOps, List.foldl_cons]
    apply ih
    cases op with
    | add key item weight => exact Add_sound wt key item weight h
    | delete key => exact Delete_sound wt key h

/-- In a table whose `totalWeight` is positive and is the sum of the stored
weights modulo `2^64`, `Get` returns a stored entry for every number drawn. -/
theorem Get_returns_entry (wt : WeightTable V) (hinv : SumInv wt)
    (hpos : 0 < wt.totalWeight.val) (draw : Int) (h0 : 0 ≤ draw)
    (h1 : draw < wt.totalWeight.val) (order : List (Sigma fun _ : String => Item V))
    (hord : IsOrder order wt.items) :
    ∃ itm, wt.items.lookup (Get wt draw order).1 = some itm ∧
      (Get wt draw order).2 = itm.item := by
  have hhi := wt.totalWeight.hi
  have hv := randomNumber_val (draw + 1) (by omega) (by omega)
  rw [add_sub_cancel_right] at hv
  have hsum := hord.listSum_eq
  unfold SumInv at hinv
  have h2 : wrapInt64 (((Int64.ofInt draw).add (Int64.ofInt 1)).val - listSum order) ≤ 0 := by
    rw [hv, hsum]
    unfold wrapInt64 at hinv ⊢
    omega
  obtain ⟨e, he, hs⟩ := scan_hits order _ (by omega) h2
  unfold Get
  rw [if_neg (by omega), hs]
  exact ⟨e.2, (hord.mem_iff e.1 e.2).1 he, rfl⟩


/-- Claim C11: `GetAllProbabilities` returns an empty map when
`totalWeight == 0`; otherwise, whatever the order in which the entries are
visited, the keys of the returned map are the keys stored in the table and each
is mapped to what `GetProbability` returns for it on the same table. -/
theorem GetAllProbabilities_spec (wt : WeightTable V)
    (order : List (Sigma fun _ : String => Item V)) (hord : IsOrder order wt.items) :
    (wt.totalWeight.val = 0 → GetAllProbabilities wt order = ∅) ∧
    (wt.totalWeight.val ≠ 0 →
      (∀ k, k ∈ GetAllProbabilities wt order ↔ k ∈ wt.items) ∧
      ∀ k, k ∈ wt.items →
        (GetAllProbabilities wt order).lookup k = some (GetProbability wt k)) := by
  constructor
  · intro h
    unfold GetAllProbabilities
    rw [if_pos h]
  · intro h
    have hval : ∀ k itm, wt.items.lookup k = some itm →
        (GetAllProbabilities wt order).lookup k = some (GetProbability wt k) := by
      intro k itm hk
      unfold GetAllProbabilities GetProbability
      rw [if_neg h, if_neg h, hk]
      exact foldl_insert_lookup_of_mem
        (fun i => F64.div (F64.round (F64.mul (F64.mul
          (F64.div (F64.ofInt64 i.weight) (F64.ofInt64 wt.totalWeight))
          (F64.ofInt 100)) (F64.ofInt 100))) (F64.ofInt 100))
        order hord.nodupKeys ∅ k itm ((hord.mem_iff k itm).2 hk)
    have hnone : ∀ k, wt.items.lookup k = none →
        (GetAllProbabilities wt order).lookup k = none := by
      intro k hk
      unfold GetAllProbabilities
      rw [if_neg h]
      rw [foldl_insert_lookup_of_not_mem
        (fun i => F64.div (F64.round (F64.mul (F64.mul
          (F64.div (F64.ofInt64 i.weight) (F64.ofInt64 wt.totalWeight))
          (F64.ofInt 100)) (F64.ofInt 100))) (F64.ofInt 100))
        order ∅ k (hord.not_mem_keys k hk)]
      exact Finmap.lookup_empty k
    constructor
    · intro k
      cases hk : wt.items.lookup k with
      | none =>
        have h1 := Finmap.lookup_eq_none.1 (hnone k hk)
        have h2 := Finmap.lookup_eq_none.1 hk
        exact ⟨fun h => absurd h h1, fun h => absurd h h2⟩
      | some itm =>
        exact ⟨fun _ => Finmap.mem_of_lookup_eq_some hk,
          fun _ => Finmap.mem_of_lookup_eq_some (hval k itm hk)⟩
    · intro k hk
      obtain ⟨itm, hitm⟩ := Finmap.mem_iff.1 hk
      exact hval k itm hitm

/-- Claim C11 at the table of `TestGetAllProbabilities`, visited as `item3`,
`item1`, `item2`: `item2` is mapped to `GetProbability("item2")`, which is `30`. -/
theorem GetAllProbabilities_spec_witness :
    (GetAllProbabilities exPercent exPercentOrder).lookup "item2"
      = some (GetProbability exPercent "item2") ∧
    GetProbability exPercent "item2" = F64.ofInt 30 :=
  ⟨((GetAllProbabilities_spec exPercent exPercentOrder (by decide)).2 (by decide)).2
      "item2" (by decide),
    by decide⟩

/-- Claim C12: on the table built by `New`, `Get` returns the empty key and
`nil`, `GetProbability(k)` returns `0.0` for every `k`, and
`GetAllProbabilities` returns an empty map; and `Get` returns the empty key and
`nil` on every table whose `totalWeight` is `<= 0`. -/
theorem fresh_table_results :
    (∀ (draw : Int) (order : List (Sigma fun _ : String => Item V)),
      Get (New : WeightTable V) draw order = ("", none)) ∧
    (∀ k : String, GetProbability (New : WeightTable V) k = F64.zero) ∧
    (∀ order : List (Sigma fun _ : String => Item V),
      GetAllProbabilities (New : WeightTable V) order = ∅) ∧
    (∀ (wt : WeightTable V) (draw : Int) (order : List (Sigma fun _ : String => Item V)),
      wt.totalWeight.val ≤ 0 → Get wt draw order = ("", none)) := by
  have h0 : (New : WeightTable V).totalWeight.val = 0 := rfl
  refine ⟨?_, ?_, ?_, ?_⟩
  · intro draw order
    unfold Get
    rw [if_pos (by omega)]
  · intro k
    unfold GetProbability
    rw [if_pos h0]
  · intro order
    unfold GetAllProbabilities
    rw [if_pos h0]
  · intro wt draw order h
    unfold Get
    rw [if_pos h]

/-- Claim C12 at the table reached by `Add("a", 0, 2^63-1)` and
`Add("b", 0, 2^63-1)`, whose `totalWeight` is `-2`: `Get` returns the empty key
and `nil`. -/
theorem fresh_table_results_witness :
    exOverflow.totalWeight.val = -2 ∧ Get exOverflow 0 [] = ("", none) :=
  ⟨by decide, fresh_table_results.2.2.2 exOverflow 0 [] (by decide)⟩

theorem sumWeights_pos (m : Finmap (fun _ : String => Item V))
    (hpos : ∀ e ∈ m.entries, 0 < e.2.weight.val) (k : String) (hk : k ∈ m) :
    0 < sumWeights m := by
  obtain ⟨itm, hitm⟩ := Finmap.mem_iff.1 hk
  rw [sumWeights_of_lookup hitm]
  have hw := hpos ⟨k, itm⟩ (Finmap.lookup_eq_some_iff.1 hitm)
  have hrest : 0 ≤ sumWeights (m.erase k) := by
    unfold sumWeights
    apply Multiset.sum_nonneg
    intro x hx
    obtain ⟨e, he, rfl⟩ := Multiset.mem_map.1 hx
    have h1 : (m.erase k).lookup e.1 = some e.2 := Finmap.lookup_eq_some_iff.2 he
    have hne : e.1 ≠ k := by
      intro h
      rw [h, Finmap.lookup_erase] at h1
      cases h1
    rw [Finmap.lookup_erase_ne hne] at h1
    exact (hpos ⟨e.1, e.2⟩ (Finmap.lookup_eq_some_iff.1 h1)).le
  simp only [] at hw
  omega

theorem sumWeights_of_no_entry (m : Finmap (fun _ : String => Item V))
    (h : ¬ ∃ k, k ∈ m) : sumWeights m = 0 := by
  have : m = ∅ := by
    apply Finmap.ext_lookup
    intro x
    rw [Finmap.lookup_empty, Finmap.lookup_eq_none]
    exact fun hx => h ⟨x, hx⟩
  rw [this]
  rfl

/-- Claim C13, as the code has it: on a table reached from `New` by `Add` and
`Delete` calls whose `totalWeight` is `> 0`, the table holds an entry and, for
every number drawn in `[0, totalWeight)` (so every `randomNumber` in
`[1, totalWeight]`) and every iteration order, `Get` returns a key stored in
the table together with the value stored for it; the key is non-empty and the
value is non-nil.  A table holding an entry has `totalWeight > 0` whenever its
stored weights are positive and sum to at most `2^63 - 1`. -/
theorem Get_returns_stored (ops : List (Op V)) :
    (0 < (runOps New ops).totalWeight.val →
      (∃ k, k ∈ (runOps New ops).items) ∧
      ∀ (draw : Int) (order : List (Sigma fun _ : String => Item V)),
        0 ≤ draw → draw < (runOps New ops).totalWeight.val →
        IsOrder order (runOps New ops).items →
        (∃ itm,
          (runOps New ops).items.lookup (Get (runOps New ops) draw order).1 = some itm ∧
          (Get (runOps New ops) draw order).2 = itm.item) ∧
        (Get (runOps New ops) draw order).1 ≠ "" ∧
        (Get (runOps New ops) draw order).2 ≠ none) ∧
    ((∃ k, k ∈ (runOps New ops).items) →
      (∀ e ∈ (runOps New ops).items.entries, 0 < e.2.weight.val) →
      sumWeights (runOps New ops).items ≤ 9223372036854775807 →
      0 < (runOps New ops).totalWeight.val) := by
  have hinv : SumInv (runOps New ops) := runOps_sumInv ops New New_sumInv
  refine ⟨fun hpos => ⟨?_, ?_⟩, ?_⟩
  · by_contra hc
    have h := hinv
    unfold SumInv at h
    rw [h, sumWeights_of_no_entry _ hc] at hpos
    simp [wrapInt64] at hpos
  · intro draw order h0 h1 hord
    obtain ⟨itm, hk, hv⟩ := Get_returns_entry (runOps New ops) hinv hpos draw h0 h1 order hord
    have hs := runOps_sound ops New New_sound _ itm hk
    exact ⟨⟨itm, hk, hv⟩, hs.1, by rw [hv]; exact hs.2⟩
  · rintro ⟨k, hk⟩ hw hfit
    have hs := sumWeights_pos _ hw k hk
    unfold SumInv at hinv
    rw [hinv, wrapInt64_of_range (by omega) hfit]
    exact hs

/-- Claim C13 at the table of `TestGet`, visited as `item2`, `item1`, with 25
drawn (`randomNumber` 26): `Get` returns `item1` and `"data1"`. -/
theorem Get_returns_stored_witness :
    exTwo.totalWeight.val = 30 ∧ Get exTwo 25 exTwoOrder = ("item1", some "data1") ∧
    (Get exTwo 25 exTwoOrder).1 ≠ "" ∧ (Get exTwo 25 exTwoOrder).2 ≠ none :=
  ⟨by decide, by decide,
    (((Get_returns_stored
      [Op.add "item1" (some "data1") (Int64.ofInt 10),
        Op.add "item2" (some "data2") (Int64.ofInt 20)]).1 (by decide)).2
      25 exTwoOrder (by decide) (by decide) (by decide)).2⟩

/-- Claim C13 fails as stated: the table reached by `Add("a", 0, 2^63-1)` and
`Add("b", 0, 2^63-1)` holds `a` and `b`, its `totalWeight` has wrapped to `-2`,
and `Get` returns the empty key and `nil`, whatever the iteration order. -/
theorem Get_empty_on_populated_table :
    exOverflow = runOps New exOverflowOps ∧
    exOverflow.items.lookup "a" = some { weight := maxInt64, item := some 0 } ∧
    exOverflow.items.lookup "b" = some { weight := maxInt64, item := some 0 } ∧
    exOverflow.totalWeight.val = -2 ∧
    (∀ (draw : Int) (order : List (Sigma fun _ : String => Item Nat)),
      Get exOverflow draw order = ("", none)) := by
  refine ⟨rfl, by decide, by decide, by decide, fun draw order => ?_⟩
  have h : exOverflow.totalWeight.val ≤ 0 := by decide
  unfold Get
  rw [if_pos h]

/-- Claim C14: for a table reached from `New` by `Add` and `Delete` calls and a
non-empty key `x`, after `Delete(x)` no draw of `Get`, whatever the number
drawn and the iteration order, returns `x`; and on a table fresh from `New`,
`Add(x, v, w)` with `v` non-nil and `w > 0` followed by `Delete(x)` leaves
`totalWeight` at `0` and `Get` returning the empty key and `nil`. -/
theorem Delete_removes_contribution (ops : List (Op V)) (x : String) (hx : x ≠ "") :
    (∀ (draw : Int) (order : List (Sigma fun _ : String => Item V)),
      IsOrder order (Delete (runOps New ops) x).items →
      (Get (Delete (runOps New ops) x) draw order).1 ≠ x) ∧
    (∀ (v : V) (w : Int64), 0 < w.val →
      (Delete (Add New x (some v) w).1 x).totalWeight.val = 0 ∧
      ∀ (draw : Int) (order : List (Sigma fun _ : String => Item V)),
        Get (Delete (Add New x (some v) w).1 x) draw order = ("", none)) := by
  constructor
  · intro draw order hord
    have hgone : (Delete (runOps New ops) x).items.lookup x = none := by
      cases hl : (runOps New ops).items.lookup x with
      | none => rw [Delete_of_absent _ x hl]; exact hl
      | some old => rw [Delete_of_present _ x old hl]; exact Finmap.lookup_erase _ _
    unfold Get
    split
    · exact fun h => hx h.symm
    · rcases scan_nil_or_mem order ((Int64.ofInt draw).add (Int64.ofInt 1)) with h | ⟨e, he, hs⟩
      · rw [h]; exact fun h => hx h.symm
      · rw [hs]
        intro hkey
        simp only [] at hkey
        exact hord.not_mem_keys x hgone (hkey ▸ List.mem_keys_of_mem (s := ⟨e.1, e.2⟩) he)
  · intro v w hw
    have hnew : (New : WeightTable V).items.lookup x = none := Finmap.lookup_empty x
    have htw : (Delete (Add New x (some v) w).1 x).totalWeight.val = 0 := by
      rw [Add_of_new New x v w hw hx hnew]
      rw [Delete_of_present _ x { weight := w, item := some v } (Finmap.lookup_insert _)]
      have h1 := w.lo
      have h2 := w.hi
      simp only [Int64.sub, Int64.add, Int64.ofInt, New, wrapInt64]
      omega
    refine ⟨htw, fun draw order => ?_⟩
    unfold Get
    rw [if_pos (by omega)]

/-- Claim C14 on `TestDelete`: after `Add("item1", "data1", 10)` and
`Delete("item1")` on a fresh table, `totalWeight` is `0`. -/
theorem Delete_removes_contribution_witness :
    (Delete (Add (New : WeightTable String) "item1" (some "data1") (Int64.ofInt 10)).1
      "item1").totalWeight.val = 0 :=
  ((Delete_removes_contribution ([] : List (Op String)) "item1" (by decide)).2
    "data1" (Int64.ofInt 10) (by decide)).1

/-- Claim C15: for a table reached from `New` by `Add` and `Delete` calls,
after `clean` every draw of `Get`, whatever the number drawn and the iteration
order, returns the empty key and `nil`. -/
theorem Get_after_clean (ops : List (Op V)) (draw : Int)
    (order : List (Sigma fun _ : String => Item V))
    (hord : IsOrder order (clean (runOps New ops)).items) :
    Get (clean (runOps New ops)) draw order = ("", none) := by
  have hnil : order = [] := IsOrder.eq_nil hord
  subst hnil
  unfold Get
  split <;> rfl

/-- Claim C15 on `TestClean`: after `Add("item1", "data1", 10)` and `clean`,
`totalWeight` is still `10`, the draw `3` is possible, and `Get` returns the
empty key and `nil`. -/
theorem Get_after_clean_witness :
    (clean (runOps New [Op.add "item1" (some "data1") (Int64.ofInt 10)])).totalWeight.val = 10 ∧
    Get (clean (runOps New [Op.add "item1" (some "data1") (Int64.ofInt 10)])) 3 []
      = ("", (none : Option String)) :=
  ⟨by decide,
    Get_after_clean [Op.add "item1" (some "data1") (Int64.ofInt 10)] 3 [] (by decide)⟩


/-- The values of `r` that select `k`: those in `(before, before + weight(k)]`. -/
theorem selectionCount_eq (wt : WeightTable V)
    (hsum : wt.totalWeight.val = sumWeights wt.items)
    (hpos : ∀ e ∈ wt.items.entries, 0 < e.2.weight.val)
    (order : List (Sigma fun _ : String => Item V)) (hord : IsOrder order wt.items)
    (k : String) (itm : Item V) (hk : wt.items.lookup k = some itm) :
    (selectionCount wt order k : Int) = itm.weight.val := by
  have hposl : ∀ e ∈ order, 0 < e.2.weight.val := fun e he =>
    hpos e (by rw [← hord]; exact he)
  have hnd := hord.nodupKeys
  have hmem := (hord.mem_iff k itm).2 hk
  have hls := hord.listSum_eq
  have hw := hposl _ hmem
  have hb := before_nonneg k order hposl
  have hle := before_add_le k itm order hposl hnd hmem
  have hhi := wt.totalWeight.hi
  have hiff : ∀ r, 1 ≤ r → r ≤ wt.totalWeight.val →
      ((Get wt (r - 1) order).1 = k ↔
        before k order < r ∧ r ≤ before k order + itm.weight.val) := by
    intro r h1 h2
    have hv := randomNumber_val r h1 (by omega)
    unfold Get
    rw [if_neg (by omega)]
    rw [scan_key_iff order hposl hnd k itm hmem _ (by omega) (by omega), hv]
  have hset : ((Finset.Icc 1 wt.totalWeight.val).filter
      fun r => (Get wt (r - 1) order).1 = k)
      = Finset.Ioc (before k order) (before k order + itm.weight.val) := by
    ext r
    simp only [Finset.mem_filter, Finset.mem_Icc, Finset.mem_Ioc]
    constructor
    · rintro ⟨⟨h1, h2⟩, h3⟩
      exact (hiff r h1 h2).1 h3
    · rintro ⟨h1, h2⟩
      exact ⟨⟨by omega, by omega⟩, (hiff r (by omega) (by omega)).2 ⟨h1, h2⟩⟩
  unfold selectionCount
  rw [hset, Int.card_Ioc]
  simp only [] at hw
  omega

theorem exABC_counts (order : List (Sigma fun _ : String => Item String))
    (hord : IsOrder order exABC.items) :
    selectionCount exABC order "a" = 1 ∧ selectionCount exABC order "b" = 1000 ∧
    selectionCount exABC order "c" = 500 := by
  have ha := selectionCount_eq exABC (by decide) (by decide) order hord "a"
    ⟨Int64.ofInt 1, some "x"⟩ (by decide)
  have hb := selectionCount_eq exABC (by decide) (by decide) order hord "b"
    ⟨Int64.ofInt 1000, some "y"⟩ (by decide)
  have hc := selectionCount_eq exABC (by decide) (by decide) order hord "c"
    ⟨Int64.ofInt 500, some "z"⟩ (by decide)
  have h1 : (Int64.ofInt 1).val = 1 := by decide
  have h2 : (Int64.ofInt 1000).val = 1000 := by decide
  have h3 : (Int64.ofInt 500).val = 500 := by decide
  simp only [h1, h2, h3] at ha hb hc
  omega

/-- Claim C16, as the code has it: for the table holding `a`, `b`, `c` with
weights 1, 1000 and 500, and for every iteration order, 1, 1000 and 500 of the
1501 integers `r` in `[1, totalWeight]` select `a`, `b` and `c`: the selection
probabilities are `1/1501`, `1000/1501` and `500/1501`, that is `0.0666%`,
`66.62%` and `33.31%` to the digits shown. -/
theorem exABC_selection (order : List (Sigma fun _ : String => Item String))
    (hord : IsOrder order exABC.items) :
    exABC.totalWeight.val = 1501 ∧
    selectionCount exABC order "a" = 1 ∧ selectionCount exABC order "b" = 1000 ∧
    selectionCount exABC order "c" = 500 ∧
    (0.0666 ≤ selectionPercent exABC order "a" ∧ selectionPercent exABC order "a" < 0.0667) ∧
    (66.62 ≤ selectionPercent exABC order "b" ∧ selectionPercent exABC order "b" < 66.63) ∧
    (33.31 ≤ selectionPercent exABC order "c" ∧ selectionPercent exABC order "c" < 33.32) := by
  obtain ⟨ha, hb, hc⟩ := exABC_counts order hord
  have ht : exABC.totalWeight.val = 1501 := by decide
  refine ⟨ht, ha, hb, hc, ?_, ?_, ?_⟩
  · unfold selectionPercent; rw [ha, ht]; norm_num
  · unfold selectionPercent; rw [hb, ht]; norm_num
  · unfold selectionPercent; rw [hc, ht]; norm_num

/-- Claim C16 for the order `b`, `c`, `a`: 1000 of the 1501 values select `b`. -/
theorem exABC_selection_witness :
    selectionCount exABC exABCOrder "b" = 1000 ∧
    66.62 ≤ selectionPercent exABC exABCOrder "b" :=
  ⟨(exABC_selection exABCOrder (by decide)).2.2.1,
    (exABC_selection exABCOrder (by decide)).2.2.2.2.2.1.1⟩

/-- Claim C16 fails as stated: visiting `b`, `c`, `a`, the percentages of the
values of `r` that select `a`, `b`, `c` are `100/1501`, `100000/1501` and
`50000/1501`; they differ from `0.0665`, `66.49` and `33.27` by more than one
unit of the last digit shown. -/
theorem exABC_percent_differs :
    selectionPercent exABC exABCOrder "a" = 100 / 1501 ∧
    selectionPercent exABC exABCOrder "b" = 100000 / 1501 ∧
    selectionPercent exABC exABCOrder "c" = 50000 / 1501 ∧
    0.0001 < |selectionPercent exABC exABCOrder "a" - 0.0665| ∧
    0.01 < |selectionPercent exABC exABCOrder "b" - 66.49| ∧
    0.01 < |selectionPercent exABC exABCOrder "c" - 33.27| := by
  obtain ⟨ha, hb, hc⟩ := exABC_counts exABCOrder (by decide)
  have ht : exABC.totalWeight.val = 1501 := by decide
  have pa : selectionPercent exABC exABCOrder "a" = 100 / 1501 := by
    unfold selectionPercent; rw [ha, ht]; norm_num
  have pb : selectionPercent exABC exABCOrder "b" = 100000 / 1501 := by
    unfold selectionPercent; rw [hb, ht]; norm_num
  have pc : selectionPercent exABC exABCOrder "c" = 50000 / 1501 := by
    unfold selectionPercent; rw [hc, ht]; norm_num
  refine ⟨pa, pb, pc, ?_, ?_, ?_⟩
  · rw [pa, abs_of_pos (by norm_num)]; norm_num
  · rw [pb, abs_of_pos (by norm_num)]; norm_num
  · rw [pc, abs_of_pos (by norm_num)]; norm_num


/-- Claim C17, as the code has it: on a table reached from `New` by `Add` and
`Delete` calls, `totalWeight > 0` implies that the table holds an entry; and a
table holding an entry has `totalWeight > 0` provided its stored weights are
positive and sum to at most `2^63 - 1`. -/
theorem populated_iff_totalWeight_pos (ops : List (Op V)) :
    (0 < (runOps New ops).totalWeight.val → ∃ k, k ∈ (runOps New ops).items) ∧
    ((∀ e ∈ (runOps New ops).items.entries, 0 < e.2.weight.val) →
      sumWeights (runOps New ops).items ≤ 9223372036854775807 →
      ((∃ k, k ∈ (runOps New ops).items) ↔ 0 < (runOps New ops).totalWeight.val)) := by
  have hinv : SumInv (runOps New ops) := runOps_sumInv ops New New_sumInv
  unfold SumInv at hinv
  have hfwd : 0 < (runOps New ops).totalWeight.val → ∃ k, k ∈ (runOps New ops).items := by
    intro h
    by_contra hc
    rw [hinv, sumWeights_of_no_entry _ hc] at h
    simp [wrapInt64] at h
  refine ⟨hfwd, fun hpos hfit => ⟨?_, hfwd⟩⟩
  rintro ⟨k, hk⟩
  have hs := sumWeights_pos _ hpos k hk
  rw [hinv, wrapInt64_of_range (by omega) hfit]
  exact hs

/-- Claim C17 at the table of `TestGet`: it holds `item1` and its `totalWeight`
is 30. -/
theorem populated_iff_totalWeight_pos_witness :
    (∃ k, k ∈ exTwo.items) ∧ 0 < exTwo.totalWeight.val :=
  ⟨⟨"item1", by decide⟩,
    ((populated_iff_totalWeight_pos
      [Op.add "item1" (some "data1") (Int64.ofInt 10),
        Op.add "item2" (some "data2") (Int64.ofInt 20)]).2 (by decide) (by decide)).1
      ⟨"item1", by decide⟩⟩

/-- Claim C17 fails as stated, in both directions: after `Add("item1", "data1", 10)`
and `clean()` the table holds no entry and `totalWeight` is `10`; after
`Add("a", 0, 2^63-1)` and `Add("b", 0, 2^63-1)` the table holds `a` and
`totalWeight` is `-2`. -/
theorem populated_not_iff_totalWeight_pos :
    ((runMutations New exCleanCalls).items = ∅ ∧
      (runMutations New exCleanCalls).totalWeight.val = 10) ∧
    ("a" ∈ (runMutations New
        [Mutation.add "a" (some 0) maxInt64, Mutation.add "b" (some 0) maxInt64]).items ∧
      (runMutations New
        [Mutation.add "a" (some 0) maxInt64, Mutation.add "b" (some 0) maxInt64]).totalWeight.val
        = -2) := by
  decide

theorem Mutation_apply_pos (wt : WeightTable V) (m : Mutation V)
    (hfit : weightsFit wt [m] = true)
    (h : ∀ k itm, wt.items.lookup k = some itm → 0 < itm.weight.val) :
    ∀ k itm, (Mutation.apply wt m).items.lookup k = some itm → 0 < itm.weight.val := by
  cases m with
  | add key item weight =>
    simp only [Mutation.apply]
    by_cases hr : weight.val ≤ 0 ∨ key = ""
    · rw [Add_of_reject wt key item weight hr]; exact h
    · rw [not_or] at hr
      have hw : 0 < weight.val := by omega
      cases hl : wt.items.lookup key with
      | none =>
        cases item with
        | none => rw [Add_of_new_nil wt key weight hl]; exact h
        | some v =>
          rw [Add_of_new wt key v weight hw hr.2 hl]
          intro k itm hk
          by_cases hkk : k = key
          · subst hkk
            simp only [Finmap.lookup_insert] at hk
            cases hk
            exact hw
          · simp only [Finmap.lookup_insert_of_ne _ hkk] at hk
            exact h k itm hk
      | some old =>
        have hold := h key old hl
        have hlo := old.weight.lo
        simp only [weightsFit, hl, Bool.and_true, decide_eq_true_eq] at hfit
        rw [Add_of_existing wt key item weight old hw hr.2 hl]
        intro k itm hk
        by_cases hkk : k = key
        · subst hkk
          simp only [Finmap.lookup_insert] at hk
          cases hk
          simp only [Int64.add, Int64.ofInt]
          rw [wrapInt64_of_range (by omega) hfit]
          omega
        · simp only [Finmap.lookup_insert_of_ne _ hkk] at hk
          exact h k itm hk
  | delete key =>
    simp only [Mutation.apply]
    cases hl : wt.items.lookup key with
    | none => rw [Delete_of_absent wt key hl]; exact h
    | some old =>
      rw [Delete_of_present wt key old hl]
      intro k itm hk
      by_cases hkk : k = key
      · subst hkk
        simp only [Finmap.lookup_erase] at hk
        cases hk
      · simp only [Finmap.lookup_erase_ne hkk] at hk
        exact h k itm hk
  | clean =>
    intro k itm hk
    simp [Mutation.apply, clean] at hk

theorem weightsFit_cons (wt : WeightTable V) (m : Mutation V) (rest : List (Mutation V))
    (h : weightsFit wt (m :: rest) = true) :
    weightsFit wt [m] = true ∧ weightsFit (Mutation.apply wt m) rest = true := by
  cases m with
  | add key item weight =>
    simp only [weightsFit, Bool.and_eq_true, Bool.and_true] at h ⊢
    exact ⟨h.1, h.2⟩
  | delete key =>
    simp only [weightsFit] at h ⊢
    exact ⟨trivial, h⟩
  | clean =>
    simp only [weightsFit] at h ⊢
    exact ⟨trivial, h⟩

theorem runMutations_pos (calls : List (Mutation V)) (wt : WeightTable V)
    (hfit : weightsFit wt calls = true)
    (h : ∀ k itm, wt.items.lookup k = some itm → 0 < itm.weight.val) :
    ∀ k itm, (runMutations wt calls).items.lookup k = some itm → 0 < itm.weight.val := by
  induction calls generalizing wt with
  | nil => exact h
  | cons m rest ih =>
    obtain ⟨h1, h2⟩ := weightsFit_cons wt m rest hfit
    simp only [runMutations, List.foldl_cons]
    exact ih _ h2 (Mutation_apply_pos wt m h1 h)

/-- Claim C18, as the code has it: on a table reached from `New` by `Add`,
`Delete` and teardown calls with arbitrary `int64` weights, every stored weight
is `> 0`, provided no `Add` to a key already in the table takes that entry's
weight beyond `2^63 - 1`. -/
theorem stored_weights_positive (calls : List (Mutation V))
    (hfit : weightsFit New calls = true) :
    ∀ k itm, (runMutations New calls).items.lookup k = some itm → 0 < itm.weight.val :=
  runMutations_pos calls New hfit (fun k itm hk => by simp [New] at hk)

/-- Claim C18 on the accepted and rejected calls of `TestAdd`, followed by
`Delete`, `clean` and one more `Add`: `item2` is stored with weight 7. -/
theorem stored_weights_positive_witness :
    weightsFit New exFitCalls = true ∧
    (runMutations New exFitCalls).items.lookup "item2"
      = some { weight := Int64.ofInt 7, item := some "data2" } ∧
    0 < (Int64.ofInt 7).val :=
  ⟨by decide, by decide,
    stored_weights_positive exFitCalls (by decide) "item2"
      { weight := Int64.ofInt 7, item := some "data2" } (by decide)⟩

/-- Claim C18 fails as stated: after `Add("a", 0, 2^63-1)` and `Add("a", nil, 1)`
on a fresh table, both of them accepted, `a` is stored with weight `-2^63`. -/
theorem stored_weight_negative_on_overflow :
    (Add (New : WeightTable Nat) "a" (some 0) maxInt64).2 = true ∧
    (Add (Add (New : WeightTable Nat) "a" (some 0) maxInt64).1 "a" none (Int64.ofInt 1)).2
      = true ∧
    (runMutations New exWrapCalls).items.lookup "a"
      = some { weight := Int64.ofInt (-9223372036854775808), item := some 0 } ∧
    (Int64.ofInt (-9223372036854775808)).val = -9223372036854775808 ∧
    ¬ 0 < (Int64.ofInt (-9223372036854775808)).val := by
  decide

theorem wrapBits_64 (x : Int) : wrapBits 64 x = wrapInt64 x := by
  unfold wrapBits wrapInt64
  norm_num

theorem toInt_64 (x : Int64) : toInt 64 x = x.val := by
  unfold toInt
  rw [wrapBits_64]
  exact wrapInt64_of_range x.lo x.hi

/-- Whatever the width of `int`, a call of `Get` that does not panic returns
what `Get wt draw order` gives for the number `draw` that `rand.IntN` returned,
or for any number when the guard `wt.totalWeight <= 0` returns before the call. -/
theorem GetOn_eq_Get (intBits : Nat) (pick : Int) (wt : WeightTable V)
    (order : List (Sigma fun _ : String => Item V)) (res : String × Option V)
    (h : GetOn intBits pick wt order = some res) :
    (wt.totalWeight.val ≤ 0 ∧ ∀ draw, res = Get wt draw order) ∨
    (0 < wt.totalWeight.val ∧
      ∃ draw, randIntN pick (toInt intBits wt.totalWeight) = some draw ∧
        res = Get wt draw order) := by
  unfold GetOn at h
  by_cases hg : wt.totalWeight.val ≤ 0
  · rw [if_pos hg] at h
    left
    refine ⟨hg, fun draw => ?_⟩
    unfold Get
    rw [if_pos hg]
    exact (Option.some.inj h).symm
  · rw [if_neg hg] at h
    right
    refine ⟨by omega, ?_⟩
    cases hr : randIntN pick (toInt intBits wt.totalWeight) with
    | none => rw [hr] at h; cases h
    | some draw =>
      rw [hr] at h
      refine ⟨draw, rfl, ?_⟩
      unfold Get
      rw [if_neg hg]
      exact (Option.some.inj h).symm

/-- Where `int` has 64 bits, `Get` calls `rand.IntN` only with the argument
`totalWeight`, and only when it is `>= 1`: the call does not panic, the number
drawn lies in `[0, totalWeight)` and `randomNumber` in `[1, totalWeight]`. -/
theorem GetOn_64 (pick : Int) (wt : WeightTable V)
    (order : List (Sigma fun _ : String => Item V)) :
    (wt.totalWeight.val ≤ 0 → GetOn 64 pick wt order = some ("", none)) ∧
    (0 < wt.totalWeight.val →
      toInt 64 wt.totalWeight = wt.totalWeight.val ∧
      ∃ draw, randIntN pick (toInt 64 wt.totalWeight) = some draw ∧
        0 ≤ draw ∧ draw < wt.totalWeight.val ∧
        1 ≤ (randomNumber draw).val ∧ (randomNumber draw).val ≤ wt.totalWeight.val ∧
        GetOn 64 pick wt order = some (Get wt draw order)) := by
  have hhi := wt.totalWeight.hi
  constructor
  · intro h
    unfold GetOn
    rw [if_pos h]
  · intro h
    have hpos : ¬ wt.totalWeight.val ≤ 0 := by omega
    have hr : randIntN pick (toInt 64 wt.totalWeight)
        = some (pick % wt.totalWeight.val) := by
      unfold randIntN
      rw [toInt_64, if_neg hpos]
    have hd0 : 0 ≤ pick % wt.totalWeight.val := Int.emod_nonneg _ (by omega)
    have hd1 : pick % wt.totalWeight.val < wt.totalWeight.val := Int.emod_lt_of_pos _ h
    have hv := randomNumber_val (pick % wt.totalWeight.val + 1) (by omega) (by omega)
    rw [add_sub_cancel_right] at hv
    have hv2 : (randomNumber (pick % wt.totalWeight.val)).val
        = pick % wt.totalWeight.val + 1 := hv
    refine ⟨toInt_64 _, pick % wt.totalWeight.val, hr, hd0, hd1, by omega, by omega, ?_⟩
    unfold GetOn Get
    rw [if_neg hpos, if_neg hpos, hr]
    rfl

/-- Claim C20 where `int` has 32 bits: after `Add("a", "x", 4294967296)` on a
fresh table `totalWeight` is `2^32`, the guard `totalWeight <= 0` lets the call
be reached, `int(wt.totalWeight)` is `0` and `rand.IntN(0)` panics; after one
more `Add` of weight 5, `rand.IntN` is called with `5`, not with `totalWeight`.
Where `int` has 64 bits the same call of `Get` returns the stored entry. -/
theorem Get_panics_with_32_bit_int :
    exWide.totalWeight.val = 4294967296 ∧ ¬ exWide.totalWeight.val ≤ 0 ∧
    toInt 32 exWide.totalWeight = 0 ∧
    (∀ (pick : Int) (order : List (Sigma fun _ : String => Item String)),
      GetOn 32 pick exWide order = none) ∧
    toInt 32 (Add exWide "a" none (Int64.ofInt 5)).1.totalWeight = 5 ∧
    (∀ pick : Int, GetOn 64 pick exWide [⟨"a", ⟨Int64.ofInt 4294967296, some "x"⟩⟩]
      = some ("a", some "x")) := by
  have ht : exWide.totalWeight.val = 4294967296 := by decide
  have hg : ¬ exWide.totalWeight.val ≤ 0 := by decide
  have h32 : toInt 32 exWide.totalWeight = 0 := by decide
  refine ⟨ht, hg, h32, ?_, by decide, ?_⟩
  · intro pick order
    unfold GetOn
    rw [if_neg hg, h32]
    rfl
  · intro pick
    obtain ⟨-, draw, hr, h0, h1, -, -, hget⟩ :=
      (GetOn_64 pick exWide [⟨"a", ⟨Int64.ofInt 4294967296, some "x"⟩⟩]).2 (by omega)
    rw [hget]
    have hv := randomNumber_val (draw + 1) (by omega) (by omega)
    rw [add_sub_cancel_right] at hv
    have h64 : (Int64.ofInt 4294967296).val = 4294967296 := by decide
    have hsub : (((Int64.ofInt draw).add (Int64.ofInt 1)).sub
        (Int64.ofInt 4294967296)).val ≤ 0 := by
      have hw : (((Int64.ofInt draw).add (Int64.ofInt 1)).sub (Int64.ofInt 4294967296)).val
          = wrapInt64 (((Int64.ofInt draw).add (Int64.ofInt 1)).val
            - (Int64.ofInt 4294967296).val) := rfl
      rw [hw, hv, h64]
      unfold wrapInt64
      omega
    unfold Get
    rw [if_neg hg]
    simp only [scan]
    rw [if_pos hsub]

end RandomWeightTable
